import Mathlib

/-!
Verification of the MCTS scene-generation engine in
`code/scriptwriter.py` (classes `MCTSNode`, `MCTSGenerator`,
`ScriptwriterAgent`).

Shallow embedding conventions:
* The mutable tree of `MCTSNode` objects is an arena: a `List (Node σ V)`
  indexed by position.  A child always stores the index of its parent and a
  parent stores the indices of its children, mirroring the Python object
  graph.  Nodes are only ever appended (during `expand`), so indices are
  stable, a parent's index is always smaller than its children's indices,
  and the parent chains terminate.
* Candidate states are an opaque type `σ`; the synthetic root carries
  `Option.none` (Python `None`); every expanded child carries `some s`.
* Python floats (`uct` values built from `math.sqrt` / `math.log`) are
  idealised as real numbers.  The engine is stated generically over an
  ordered value type `V` together with the formula `uctF` used to
  recompute `uct`; the concrete program is the instance `V = ℝ`,
  `uctF = realUctF` below.  Keeping `V` generic keeps the whole run
  executable (e.g. at `V = ℤ`), which the concrete-input theorems use.
* The asynchronous LLM calls `_generate_scene` / `_evaluate_scene` are
  oracles that may fail: `Except E`.  `generate_scene` has no
  `try`/`except`, so oracle errors propagate out of an iteration, and
  `gen_new_scene_script` has none either.  `_generate_scene` is modelled
  as a function of a call counter so that successive calls may return
  different candidates.
* `random.choice` draws from the process-global generator; it is modelled
  as an injected deterministic generator `rand : Nat → Nat × Nat`
  threaded through the run (state, then `value % length` picks the item).
* The `while iteration_count < max_iterations` loop is *not* structurally
  terminating (the depth guard `continue` on line 66 skips the
  `iteration_count += 1` on line 90), so the loop is run on explicit fuel:
  `runLoop fuel` performs at most `fuel` executions of the loop body and
  reports `none` when the fuel is exhausted before the loop condition
  fails.
* Ghost fields `scoreLog` (states actually sent to `_evaluate_scene`) and
  `passLog` (the node-index path of every backpropagation pass) record
  the observable events the claims talk about; they influence nothing.
* The diagnostic `model_calls` counter and the `print` calls of the
  source are pure logging and are not modelled.
-/

namespace Scriptwriter

/-- Arena node mirroring `MCTSNode.__init__`: `state` (None for the root),
`parent` (arena index), `children` (arena indices, in creation order),
`visits = 0`, `score = 0`, `uct = 0` (the generic zero `u0`). -/
structure Node (σ V : Type) where
  state : Option σ
  parent : Option Nat
  children : List Nat
  visits : Nat
  score : Int
  uct : V
deriving DecidableEq, Repr

/-- Visit count of the node at index `i` (0 for an out-of-range index;
in-range indices are the only ones that occur). -/
def visitsAt (nodes : List (Node σ V)) (i : Nat) : Nat :=
  match nodes[i]? with
  | some n => n.visits
  | none => 0

/-- Children list of the node at index `i`. -/
def childrenAt (nodes : List (Node σ V)) (i : Nat) : List Nat :=
  match nodes[i]? with
  | some n => n.children
  | none => []

/-- Parent index of the node at index `i`. -/
def parentAt (nodes : List (Node σ V)) (i : Nat) : Option Nat :=
  match nodes[i]? with
  | some n => n.parent
  | none => none

/-- State of the node at index `i` (`none` both for the root and for an
out-of-range index). -/
def stateAt (nodes : List (Node σ V)) (i : Nat) : Option σ :=
  match nodes[i]? with
  | some n => n.state
  | none => none

/-- Stored `uct` value of the node at index `i` (default `u0` out of range). -/
def uctAt (u0 : V) (nodes : List (Node σ V)) (i : Nat) : V :=
  match nodes[i]? with
  | some n => n.uct
  | none => u0

/-- One step of `MCTSNode.expand`: create `MCTSNode(state, self)` and append
it to `self.children`.  The fresh node gets the next arena index. -/
def addChild (u0 : V) (nodes : List (Node σ V)) (i : Nat) (s : σ) :
    List (Node σ V) :=
  let idx := nodes.length
  let nodes' := nodes ++
    [{ state := some s, parent := some i, children := [], visits := 0,
       score := 0, uct := u0 }]
  match nodes'[i]? with
  | some n => nodes'.set i { n with children := n.children ++ [idx] }
  | none => nodes'

/-- `MCTSNode.expand(possible_states)`: one child per candidate, appended in
input order, each with the expanded node as parent. -/
def expand (u0 : V) (nodes : List (Node σ V)) (i : Nat) (states : List σ) :
    List (Node σ V) :=
  states.foldl (fun ns s => addChild u0 ns i s) nodes

/-- `MCTSNode.update(score)`: increment `visits`, add `score` to the
cumulative `score`, and (only if a parent exists) recompute `uct` by the
formula `f` applied to the *updated* cumulative score and visit count and
the parent's current visit count — exactly the data
`(self.score, self.visits, self.parent.visits)` read on line 32. -/
def update (f : Int → Nat → Nat → V) (nodes : List (Node σ V)) (i : Nat)
    (s : Int) : List (Node σ V) :=
  match nodes[i]? with
  | none => nodes
  | some n =>
    let n1 : Node σ V := { n with visits := n.visits + 1, score := n.score + s }
    match n.parent with
    | none => nodes.set i n1
    | some p =>
      nodes.set i { n1 with uct := f n1.score n1.visits (visitsAt nodes p) }

/-- Python's `max(children, key=lambda c: c.uct)`: fold keeping the current
best and replacing it only on a strictly larger key, which returns the
first-encountered maximal element. -/
def pickMax [LinearOrder V] (u0 : V) (nodes : List (Node σ V)) (c : Nat)
    (cs : List Nat) : Nat :=
  cs.foldl (fun best x => if uctAt u0 nodes best < uctAt u0 nodes x then x else best) c

/-- `MCTSNode.select_best_child(exploration_weight)`: `None` when there are
no children, otherwise the child with maximal `uct`.  The
`exploration_weight` argument `ew` is accepted and, as in the source,
never used. -/
def select_best_child [LinearOrder V] (ew : V) (u0 : V)
    (nodes : List (Node σ V)) (i : Nat) : Option Nat :=
  match nodes[i]? with
  | none => none
  | some n =>
    match n.children with
    | [] => none
    | c :: cs => some (pickMax u0 nodes c cs)

/-- The two llm-backed operations of `ScriptwriterAgent` that the engine
consumes (the CandidateOracle of the spec): `_generate_scene` proposes one
candidate (indexed by a global call counter so distinct calls may return
distinct candidates) and `_evaluate_scene` scores one.  Both may fail. -/
structure Agent (σ E : Type) where
  generateScene : Nat → Except E σ
  evaluateScene : σ → Except E Int

/-- Engine configuration: the fields set in `MCTSGenerator.__init__`
(`max_iterations = 5`, `exploration_weight = 1.41`, `max_depth = 3`)
together with the modelling parameters: the uct formula `uctF`, its zero
`uct0`, the canonical cache-key function `keyOf` (Python `str`), the
injected random generator `rand`, and the agent. -/
structure Cfg (σ V E : Type) where
  maxIterations : Nat
  explorationWeight : V
  maxDepth : Nat
  uct0 : V
  uctF : Int → Nat → Nat → V
  keyOf : Option σ → String
  rand : Nat → Nat × Nat
  agent : Agent σ E

/-- Mutable state of one `generate_scene` run: the node arena, the
memoisation cache `self.cache` (assoc list, most recent first), the random
generator state, `iteration_count`, the `_generate_scene` call counter,
and the two ghost logs. -/
structure RunState (σ V : Type) where
  nodes : List (Node σ V)
  cache : List (String × Int)
  rng : Nat
  iter : Nat
  genCalls : Nat
  scoreLog : List σ
  passLog : List (List Nat)
deriving DecidableEq, Repr

/-- Cache lookup (`cache_key in self.cache` / `self.cache[cache_key]`). -/
def cacheGet : List (String × Int) → String → Option Int
  | [], _ => none
  | (k, v) :: rest, key => if k = key then some v else cacheGet rest key

/-- Cache store (`self.cache[cache_key] = score`); a prepended entry shadows
any older one with the same key. -/
def cachePut (c : List (String × Int)) (k : String) (v : Int) :
    List (String × Int) :=
  (k, v) :: c

/-- Depth of the node at index `i`, walking the parent chain as lines 58-62
do; the walk is fuelled by the index itself, which suffices because a
parent's index is always smaller than its child's. -/
def depthAux (nodes : List (Node σ V)) : Nat → Nat → Nat
  | 0, _ => 0
  | fuel + 1, i =>
    match parentAt nodes i with
    | none => 0
    | some p => depthAux nodes fuel p + 1

/-- Depth of node `i` (root = 0). -/
def depthOf (nodes : List (Node σ V)) (i : Nat) : Nat :=
  depthAux nodes i i

/-- The parent chain from node `i` up to the root, inclusive, in
child-to-root order: the exact sequence of nodes the backpropagation
`while node: node.update(score); node = node.parent` visits.  Fuelled by
the start index, which suffices because parent indices strictly
decrease. -/
def chainToRoot (nodes : List (Node σ V)) : Nat → Nat → List Nat
  | 0, i => [i]
  | fuel + 1, i =>
    match parentAt nodes i with
    | none => [i]
    | some p => i :: chainToRoot nodes fuel p

/-- The loop of `MCTSGenerator._select`: while the current node has
children, return a uniformly random unvisited child if one exists,
otherwise descend into the best child.  Fuelled by the arena size, which
suffices because descending strictly increases the index. -/
def selectLoop [LinearOrder V] (cfg : Cfg σ V E) (nodes : List (Node σ V)) :
    Nat → Nat → Nat → Nat × Nat
  | 0, i, g => (i, g)
  | fuel + 1, i, g =>
    match nodes[i]? with
    | none => (i, g)
    | some n =>
      if n.children = [] then (i, g)
      else
        let unvisited := n.children.filter fun c => decide (visitsAt nodes c = 0)
        if unvisited = [] then
          match select_best_child cfg.explorationWeight cfg.uct0 nodes i with
          | some j => selectLoop cfg nodes fuel j g
          | none => (i, g)
        else
          let r := cfg.rand g
          (unvisited[r.1 % unvisited.length]?.getD i, r.2)

/-- `MCTSGenerator._select(root)` starting from the root (index 0). -/
def select' [LinearOrder V] (cfg : Cfg σ V E) (nodes : List (Node σ V))
    (g : Nat) : Nat × Nat :=
  selectLoop cfg nodes nodes.length 0 g

/-- `MCTSGenerator._get_possible_states`: two `_generate_scene` calls (the
`for _ in range(2)` loop); returns the candidate list and the advanced
call counter.  As in the source the current node's state does not enter
the calls. -/
def getPossibleStates (ag : Agent σ E) (k : Nat) : Except E (List σ × Nat) :=
  match ag.generateScene k with
  | .error e => .error e
  | .ok a =>
    match ag.generateScene (k + 1) with
    | .error e => .error e
    | .ok b => .ok ([a, b], k + 2)

/-- `MCTSGenerator._simulate`: a falsy (absent) state scores 0 without
consulting the oracle; otherwise one `_evaluate_scene` call. -/
def simulate (ag : Agent σ E) (state : Option σ) : Except E Int :=
  match state with
  | none => .ok 0
  | some s => ag.evaluateScene s

/-- Expansion phase (lines 68-74): only when the selected node has prior
visits, request candidates, expand, and if children now exist move to a
uniformly random child.  Returns the new arena, current node, generator
state and call counter. -/
def expandPhase [LinearOrder V] (cfg : Cfg σ V E) (nodes : List (Node σ V))
    (i0 g k : Nat) : Except E (List (Node σ V) × Nat × Nat × Nat) :=
  if 0 < visitsAt nodes i0 then
    match getPossibleStates cfg.agent k with
    | .error e => .error e
    | .ok (states, k') =>
      let nodes1 := expand cfg.uct0 nodes i0 states
      let ch := childrenAt nodes1 i0
      if ch = [] then .ok (nodes1, i0, g, k')
      else
        let r := cfg.rand g
        .ok (nodes1, ch[r.1 % ch.length]?.getD i0, r.2, k')
  else .ok (nodes, i0, g, k)

/-- Simulation phase (lines 76-83): look the canonical key up in the
cache; on a hit use the stored score, on a miss run `_simulate`, store the
result and use it.  The ghost log grows exactly when `_evaluate_scene` is
consulted (miss and present state). -/
def simulatePhase (cfg : Cfg σ V E) (cache : List (String × Int))
    (state : Option σ) (log : List σ) :
    Except E (Int × List (String × Int) × List σ) :=
  let ck := cfg.keyOf state
  match cacheGet cache ck with
  | some v => .ok (v, cache, log)
  | none =>
    match simulate cfg.agent state with
    | .error e => .error e
    | .ok v =>
      .ok (v, cachePut cache ck v,
        match state with
        | some s => log ++ [s]
        | none => log)

/-- One execution of the body of the `while iteration_count <
max_iterations` loop (lines 56-91).  The depth-guarded branch is the
`continue` on line 66: nothing but the random generator state changes, in
particular `iteration_count` does **not** advance. -/
def stepBody [LinearOrder V] (cfg : Cfg σ V E) (st : RunState σ V) :
    Except E (RunState σ V) :=
  let sel := select' cfg st.nodes st.rng
  let i0 := sel.1
  if cfg.maxDepth ≤ depthOf st.nodes i0 then
    .ok { st with rng := sel.2 }
  else
    match expandPhase cfg st.nodes i0 sel.2 st.genCalls with
    | .error e => .error e
    | .ok (nodes1, j, g2, k2) =>
      match simulatePhase cfg st.cache (stateAt nodes1 j) st.scoreLog with
      | .error e => .error e
      | .ok (score, cache2, log2) =>
        let path := chainToRoot nodes1 j j
        let nodes2 := path.foldl (fun ns idx => update cfg.uctF ns idx score) nodes1
        .ok { nodes := nodes2, cache := cache2, rng := g2, iter := st.iter + 1,
              genCalls := k2, scoreLog := log2,
              passLog := st.passLog ++ [path] }

/-- The search loop, driven by explicit fuel: `.ok none` means the fuel ran
out with the loop still running (the source loop has no other bound, and
can in fact run forever), `.ok (some st)` a normal exit with final state
`st`, `.error e` an oracle error that escaped an iteration. -/
def runLoop [LinearOrder V] (cfg : Cfg σ V E) :
    Nat → RunState σ V → Except E (Option (RunState σ V))
  | 0, _ => .ok none
  | fuel + 1, st =>
    if st.iter < cfg.maxIterations then
      match stepBody cfg st with
      | .error e => .error e
      | .ok st' => runLoop cfg fuel st'
    else .ok (some st)

/-- The state at the start of `generate_scene`: one root node
(`MCTSNode(None)`), the generator's current cache, the current random
state, and zeroed counters and logs. -/
def initState (cfg : Cfg σ V E) (cache0 : List (String × Int)) (g0 : Nat) :
    RunState σ V :=
  { nodes := [{ state := none, parent := none, children := [], visits := 0,
                score := 0, uct := cfg.uct0 }],
    cache := cache0, rng := g0, iter := 0, genCalls := 0,
    scoreLog := [], passLog := [] }

/-- Observable outcome of one `generate_scene` call: `timeout` when the
fuel ran out (the loop had not finished), `failed e` when an oracle error
escaped, `done result final` a normal return of `best_node.state if
best_node else None` together with the (ghost) final run state. -/
inductive RunOutcome (σ V E : Type) where
  | timeout
  | failed (e : E)
  | done (result : Option σ) (final : RunState σ V)
deriving DecidableEq, Repr

/-- `MCTSGenerator.generate_scene`: run the loop, then pick the root's best
child and return its state (or `None` when the root has no children). -/
def generate_scene [LinearOrder V] (cfg : Cfg σ V E) (fuel : Nat)
    (cache0 : List (String × Int)) (g0 : Nat) : RunOutcome σ V E :=
  match runLoop cfg fuel (initState cfg cache0 g0) with
  | .error e => .failed e
  | .ok none => .timeout
  | .ok (some st) =>
    .done
      (match select_best_child cfg.explorationWeight cfg.uct0 st.nodes 0 with
       | some j => stateAt st.nodes j
       | none => none)
      st

/-- Observable outcome of `ScriptwriterAgent.gen_new_scene_script`:
`err e` is an exception reaching the caller (uncaught: the method has no
`try`), `value s k` a returned scene where `k` is the (ghost) number of
direct `_generate_scene` fallback calls made. -/
inductive DriverOutcome (σ E : Type) where
  | timeout
  | err (e : E)
  | value (s : σ) (fallbackCalls : Nat)
deriving DecidableEq, Repr

/-- `ScriptwriterAgent.gen_new_scene_script`: run the engine; a truthy
result is returned as is; a `None` result triggers exactly one direct
`_generate_scene` call; an exception from the engine (or from the
fallback call) propagates to the caller. -/
def gen_new_scene_script [LinearOrder V] (cfg : Cfg σ V E) (fuel : Nat)
    (cache0 : List (String × Int)) (g0 : Nat) : DriverOutcome σ E :=
  match generate_scene cfg fuel cache0 g0 with
  | .timeout => .timeout
  | .failed e => .err e
  | .done (some s) _ => .value s 0
  | .done none st =>
    match cfg.agent.generateScene st.genCalls with
    | .ok s => .value s 1
    | .error e => .err e

/-- The uct formula actually computed on line 32 of the source:
`(self.score / self.visits) + math.sqrt(2 * math.log(self.parent.visits)
/ self.visits)` — note the absence of any `exploration_weight` factor. -/
noncomputable def realUctF (s : Int) (v : Nat) (p : Nat) : ℝ :=
  (s : ℝ) / (v : ℝ) + Real.sqrt (2 * Real.log (p : ℝ) / (v : ℝ))

/-- Modelled from the spec (§4.3), for comparison with `realUctF`: the
UCT formula as the specification states it, with the configured
`explorationWeight` `w` as a multiplicative factor on the exploration
term. -/
noncomputable def specUctF (w : ℝ) (s : Int) (v : Nat) (p : Nat) : ℝ :=
  (s : ℝ) / (v : ℝ) + w * Real.sqrt (2 * Real.log (p : ℝ) / (v : ℝ))

/-! ## Basic arena lemmas -/

lemma get_set_self {α : Type} (l : List α) (i : Nat) (a : α)
    (h : i < l.length) : (l.set i a)[i]? = some a := by
  rw [List.getElem?_set]
  simp [h]

lemma index_lt_of_get {α : Type} {l : List α} {i : Nat} {a : α}
    (h : l[i]? = some a) : i < l.length := by
  rcases List.getElem?_eq_some.mp h with ⟨h', _⟩; exact h'

/-! ## C2: the uct recomputation in `MCTSNode.update` -/

/-- Helper: the effect of `update` on a parented node, with the generic
formula `f`. -/
lemma update_eq_of_parent {σ V : Type} (f : Int → Nat → Nat → V)
    (nodes : List (Node σ V)) (i : Nat) (n : Node σ V) (p : Nat) (s : Int)
    (hn : nodes[i]? = some n) (hp : n.parent = some p) :
    update f nodes i s =
      nodes.set i
        { n with
          visits := n.visits + 1
          score := n.score + s
          uct := f (n.score + s) (n.visits + 1) (visitsAt nodes p) } := by
  simp only [update, hn, hp]

/-- Helper: the effect of `update` on the root (no parent): statistics
change, `uct` does not. -/
lemma update_eq_of_root {σ V : Type} (f : Int → Nat → Nat → V)
    (nodes : List (Node σ V)) (i : Nat) (n : Node σ V) (s : Int)
    (hn : nodes[i]? = some n) (hp : n.parent = none) :
    update f nodes i s =
      nodes.set i { n with visits := n.visits + 1, score := n.score + s } := by
  simp only [update, hn, hp]

/-- C2 (amended): `update(score)` on a node with a parent first increments
`visits` and adds the score to the cumulative score, then recomputes the
stored `uct` as `(cumulativeScore / visitCount) +
sqrt(2 * ln(parent.visits) / visitCount)` — with the updated counters and
the parent's current visit count, and with **no** `explorationWeight`
factor on the exploration term (the factor the spec claims is absent from
line 32 of the source). -/
theorem c2_theorem {σ : Type} (nodes : List (Node σ ℝ)) (i : Nat)
    (n : Node σ ℝ) (p : Nat) (s : Int)
    (hn : nodes[i]? = some n) (hp : n.parent = some p) :
    (update realUctF nodes i s)[i]? =
      some
        { n with
          visits := n.visits + 1
          score := n.score + s
          uct := ((n.score + s : Int) : ℝ) / ((n.visits + 1 : Nat) : ℝ)
            + Real.sqrt (2 * Real.log ((visitsAt nodes p : Nat) : ℝ)
                / ((n.visits + 1 : Nat) : ℝ)) } := by
  rw [update_eq_of_parent realUctF nodes i n p s hn hp,
    get_set_self _ _ _ (index_lt_of_get hn)]
  rfl

/-- Concrete node arena for the C2 statements: a parent with 2 visits
(index 0) and a freshly created child (index 1). -/
def nodesC2 : List (Node Bool ℝ) :=
  [{ state := none, parent := none, children := [1], visits := 2, score := 0,
     uct := 0 },
   { state := some true, parent := some 0, children := [], visits := 0,
     score := 0, uct := 0 }]

/-- C2 (counterexample): at a concrete input, the `uct` value `update`
stores differs from the spec's UCT formula with the configured
`explorationWeight = 1.41` as a multiplicative factor: the code's
exploration term is unweighted. -/
theorem c2_counterexample :
    uctAt 0 (update realUctF nodesC2 1 0) 1 ≠
      specUctF (141 / 100) (0 + 0) (0 + 1) (visitsAt nodesC2 0) := by
  have h : uctAt 0 (update realUctF nodesC2 1 0) 1 = realUctF 0 1 2 := by
    rw [update_eq_of_parent realUctF nodesC2 1
      { state := some true, parent := some 0, children := [], visits := 0,
        score := 0, uct := 0 } 0 0 rfl rfl]
    rfl
  have hv : visitsAt nodesC2 0 = 2 := rfl
  rw [h, hv]
  unfold realUctF specUctF
  have hlog : (0 : ℝ) < Real.log 2 := Real.log_pos (by norm_num)
  have hsq : 0 < Real.sqrt (2 * Real.log ((2 : Nat) : ℝ) / ((1 : Nat) : ℝ)) := by
    apply Real.sqrt_pos.mpr
    push_cast
    positivity
  intro hEq
  have h0 : ((0 : Int) : ℝ) / ((1 : Nat) : ℝ) = ((0 + 0 : Int) : ℝ) / ((0 + 1 : Nat) : ℝ) := by
    norm_num
  rw [← h0] at hEq
  have := add_left_cancel hEq
  nlinarith [hsq, this]

/-- The child node of `nodesC2`. -/
def nodeC2 : Node Bool ℝ :=
  { state := some true, parent := some 0, children := [], visits := 0,
    score := 0, uct := 0 }

/-- Witness for C2: the amended theorem applied at the concrete child of
`nodesC2` with score 5. -/
theorem c2_witness :
    nodesC2[1]? = some nodeC2 ∧ nodeC2.parent = some 0 ∧
    (update realUctF nodesC2 1 5)[1]? =
      some
        { nodeC2 with
          visits := nodeC2.visits + 1
          score := nodeC2.score + 5
          uct := ((nodeC2.score + 5 : Int) : ℝ) / ((nodeC2.visits + 1 : Nat) : ℝ)
            + Real.sqrt (2 * Real.log ((visitsAt nodesC2 0 : Nat) : ℝ)
                / ((nodeC2.visits + 1 : Nat) : ℝ)) } :=
  ⟨rfl, rfl, c2_theorem nodesC2 1 nodeC2 0 5 rfl rfl⟩

/-! ## C8: `MCTSNode.select_best_child` -/

/-- Python's first-maximal `max`: the fold result sits at a position `k`
of the scanned list, every element strictly before `k` has a strictly
smaller key, and no element at all has a larger key. -/
lemma pickMax_spec {σ V : Type} [LinearOrder V] (u0 : V)
    (nodes : List (Node σ V)) :
    ∀ (cs : List Nat) (c : Nat),
      ∃ k : Nat, (c :: cs)[k]? = some (pickMax u0 nodes c cs) ∧
        (∀ m x, m < k → (c :: cs)[m]? = some x →
          uctAt u0 nodes x < uctAt u0 nodes (pickMax u0 nodes c cs)) ∧
        (∀ x ∈ c :: cs, uctAt u0 nodes x ≤ uctAt u0 nodes (pickMax u0 nodes c cs)) := by
  intro cs
  induction cs with
  | nil =>
    intro c
    refine ⟨0, rfl, ?_, ?_⟩
    · intro m x hm; omega
    · intro x hx
      rcases List.mem_singleton.mp hx with rfl
      exact le_refl _
  | cons x xs ih =>
    intro c
    by_cases h : uctAt u0 nodes c < uctAt u0 nodes x
    · have hfold : pickMax u0 nodes c (x :: xs) = pickMax u0 nodes x xs := by
        simp only [pickMax, List.foldl_cons, if_pos h]
      rcases ih x with ⟨k, hk, hpre, hall⟩
      refine ⟨k + 1, ?_, ?_, ?_⟩
      · rw [hfold, List.getElem?_cons_succ]; exact hk
      · intro m y hm hy
        rw [hfold]
        match m, hy with
        | 0, hy =>
          have hcy : c = y := by simpa using hy
          subst hcy
          exact lt_of_lt_of_le h (hall x (List.mem_cons_self _ _))
        | m + 1, hy =>
          exact hpre m y (by omega) (by simpa using hy)
      · intro y hy
        rw [hfold]
        rcases List.mem_cons.mp hy with rfl | hy'
        · exact le_of_lt (lt_of_lt_of_le h (hall x (List.mem_cons_self _ _)))
        · exact hall y hy'
    · have hfold : pickMax u0 nodes c (x :: xs) = pickMax u0 nodes c xs := by
        simp only [pickMax, List.foldl_cons, if_neg h]
      rcases ih c with ⟨k, hk, hpre, hall⟩
      match k, hk with
      | 0, hk =>
        have hc : pickMax u0 nodes c xs = c := by simpa using hk.symm
        refine ⟨0, ?_, ?_, ?_⟩
        · rw [hfold, hc]; rfl
        · intro m y hm; omega
        · intro y hy
          rw [hfold]
          rcases List.mem_cons.mp hy with rfl | hy'
          · exact hall y (List.mem_cons_self _ _)
          · rcases List.mem_cons.mp hy' with rfl | hy''
            · exact le_trans (le_of_not_lt h) (hall c (List.mem_cons_self _ _))
            · exact hall y (List.mem_cons_of_mem _ hy'')
      | k + 1, hk =>
        refine ⟨k + 2, ?_, ?_, ?_⟩
        · rw [hfold]
          simpa using hk
        · intro m y hm hy
          rw [hfold]
          have hclt : uctAt u0 nodes c < uctAt u0 nodes (pickMax u0 nodes c xs) :=
            hpre 0 c (by omega) (by simp)
          match m, hy with
          | 0, hy =>
            have hcy : c = y := by simpa using hy
            subst hcy
            exact hclt
          | 1, hy =>
            have hxy : x = y := by simpa using hy
            subst hxy
            exact lt_of_le_of_lt (le_of_not_lt h) hclt
          | m + 2, hy =>
            exact hpre (m + 1) y (by omega) (by simpa using hy)
        · intro y hy
          rw [hfold]
          rcases List.mem_cons.mp hy with rfl | hy'
          · exact hall y (List.mem_cons_self _ _)
          · rcases List.mem_cons.mp hy' with rfl | hy''
            · exact le_trans (le_of_not_lt h) (hall c (List.mem_cons_self _ _))
            · exact hall y (List.mem_cons_of_mem _ hy'')

/-- C8: `select_best_child` returns `None` exactly when the node has no
children; otherwise it returns a child whose `uct` (`selectionValue`) is
maximal among the children, with ties broken stably in favour of the
earliest-appended child (every strictly earlier child has a strictly
smaller value). -/
theorem c8_theorem {σ V : Type} [LinearOrder V] (ew u0 : V)
    (nodes : List (Node σ V)) (i : Nat) (n : Node σ V)
    (hn : nodes[i]? = some n) :
    (select_best_child ew u0 nodes i = none ↔ n.children = []) ∧
    ∀ j, select_best_child ew u0 nodes i = some j →
      j ∈ n.children ∧
      (∀ c ∈ n.children, uctAt u0 nodes c ≤ uctAt u0 nodes j) ∧
      ∃ k : Nat, n.children[k]? = some j ∧
        ∀ m c, m < k → n.children[m]? = some c →
          uctAt u0 nodes c < uctAt u0 nodes j := by
  cases hch : n.children with
  | nil =>
    constructor
    · simp [select_best_child, hn, hch]
    · intro j hj
      simp [select_best_child, hn, hch] at hj
  | cons c cs =>
    constructor
    · simp [select_best_child, hn, hch]
    · intro j hj
      simp only [select_best_child, hn, hch, Option.some_inj] at hj
      subst hj
      rcases pickMax_spec u0 nodes cs c with ⟨k, hk, hpre, hall⟩
      exact ⟨List.getElem?_mem hk, fun x hx => hall x hx, k, hk, hpre⟩

/-- Concrete arena for the C8 witness: three children with a tie in
`selectionValue` between the first two. -/
def nodesC8 : List (Node Bool Int) :=
  [{ state := none, parent := none, children := [1, 2, 3], visits := 3,
     score := 0, uct := 0 },
   { state := some true, parent := some 0, children := [], visits := 1,
     score := 7, uct := 7 },
   { state := some true, parent := some 0, children := [], visits := 1,
     score := 7, uct := 7 },
   { state := some false, parent := some 0, children := [], visits := 1,
     score := 3, uct := 3 }]

/-- The root of `nodesC8`. -/
def rootC8 : Node Bool Int :=
  { state := none, parent := none, children := [1, 2, 3], visits := 3,
    score := 0, uct := 0 }

/-- Witness for C8: on `nodesC8` the tie between children 1 and 2 is
broken in favour of child 1, the earliest appended. -/
theorem c8_witness :
    nodesC8[0]? = some rootC8 ∧
    select_best_child (0 : Int) 0 nodesC8 0 = some 1 ∧
    (1 ∈ rootC8.children ∧
      (∀ c ∈ rootC8.children, uctAt 0 nodesC8 c ≤ uctAt 0 nodesC8 1) ∧
      ∃ k : Nat, rootC8.children[k]? = some 1 ∧
        ∀ m c, m < k → rootC8.children[m]? = some c →
          uctAt 0 nodesC8 c < uctAt 0 nodesC8 1) :=
  ⟨rfl, rfl, (c8_theorem 0 0 nodesC8 0 rootC8 rfl).2 1 rfl⟩

/-! ## Concrete executable instances used by the concrete-input theorems -/

/-- A deterministic stub agent: every proposal is `true`, `true` scores 5
and `false` scores 3. -/
def agentW : Agent Bool Unit :=
  { generateScene := fun _ => .ok true,
    evaluateScene := fun b => .ok (if b then 5 else 3) }

/-- A stub agent whose very first `_generate_scene` call fails and whose
later calls succeed. -/
def agentE : Agent Bool Unit :=
  { generateScene := fun k => if k = 0 then .error () else .ok true,
    evaluateScene := fun b => .ok (if b then 5 else 3) }

/-- A canonical key function on `Option Bool` (the textual rendering
`str` produces on these states). -/
def keyW : Option Bool → String
  | none => "None"
  | some true => "True"
  | some false => "False"

/-- A concrete executable configuration (uct values in `ℤ`, a trivial
injected generator). -/
def cfgW : Cfg Bool Int Unit :=
  { maxIterations := 2, explorationWeight := 1, maxDepth := 3, uct0 := 0,
    uctF := fun s _ _ => s, keyOf := keyW, rand := fun g => (g, g + 1),
    agent := agentW }

/-- `cfgW` with an iteration budget of 1: the single iteration simulates
the root, so the run ends with a childless root. -/
def cfg1 : Cfg Bool Int Unit :=
  { cfgW with maxIterations := 1 }

/-- `cfgW` with `maxDepth = 0` and the default iteration budget 5: every
iteration is depth-guarded. -/
def cfgD0 : Cfg Bool Int Unit :=
  { cfgW with maxDepth := 0, maxIterations := 5 }

/-- `cfgW` with the default iteration budget 5 and the failing agent
`agentE`: the second iteration's expansion raises. -/
def cfgE : Cfg Bool Int Unit :=
  { cfgW with maxIterations := 5, agent := agentE }

/-- Final state of the terminating one-iteration run of `cfg1`: the root
was simulated once (score 0 for the `None` state) and backpropagated. -/
def st1fin : RunState Bool Int :=
  { nodes := [{ state := none, parent := none, children := [], visits := 1,
                score := 0, uct := 0 }],
    cache := [("None", 0)], rng := 0, iter := 1, genCalls := 0,
    scoreLog := [], passLog := [[0]] }

/-! ## C1/C3: loop-shape lemmas -/

/-- Helper: a depth-guarded loop-body execution (line 66 `continue`)
changes nothing but the random generator state; in particular
`iteration_count` does not advance. -/
lemma stepBody_guarded {σ V E : Type} [LinearOrder V] (cfg : Cfg σ V E)
    (st : RunState σ V)
    (h : cfg.maxDepth ≤ depthOf st.nodes (select' cfg st.nodes st.rng).1) :
    stepBody cfg st = .ok { st with rng := (select' cfg st.nodes st.rng).2 } := by
  simp only [stepBody]
  rw [if_pos h]

/-- Helper: every successful loop-body execution either leaves
`iteration_count` and the pass log unchanged (the depth-guarded case) or
increments the counter and logs exactly one backpropagation pass. -/
lemma stepBody_iter_cases {σ V E : Type} [LinearOrder V] (cfg : Cfg σ V E)
    {st st' : RunState σ V} (h : stepBody cfg st = .ok st') :
    (st'.iter = st.iter ∧ st'.passLog = st.passLog) ∨
    (st'.iter = st.iter + 1 ∧ ∃ pth, st'.passLog = st.passLog ++ [pth]) := by
  simp only [stepBody] at h
  split at h
  · left
    cases h
    exact ⟨rfl, rfl⟩
  · rcases hex : expandPhase cfg st.nodes (select' cfg st.nodes st.rng).1
        (select' cfg st.nodes st.rng).2 st.genCalls with e | out
    · rw [hex] at h; cases h
    · rw [hex] at h
      rcases out with ⟨nodes1, j, g2, k2⟩
      rcases hsim : simulatePhase cfg st.cache (stateAt nodes1 j) st.scoreLog
          with e | out'
      · simp only [hsim] at h; cases h
      · rcases out' with ⟨score, cache2, log2⟩
        simp only [hsim] at h
        cases h
        right
        exact ⟨rfl, chainToRoot nodes1 j j, rfl⟩

/-- Helper: a terminating run that starts within budget and with the pass
log in step with the counter ends with the counter exactly at
`maxIterations` and exactly that many logged passes. -/
lemma runLoop_count {σ V E : Type} [LinearOrder V] (cfg : Cfg σ V E) :
    ∀ (fuel : Nat) (st st' : RunState σ V),
      st.iter ≤ cfg.maxIterations → st.passLog.length = st.iter →
      runLoop cfg fuel st = .ok (some st') →
      st'.iter = cfg.maxIterations ∧
        st'.passLog.length = cfg.maxIterations := by
  intro fuel
  induction fuel with
  | zero => intro st st' _ _ h; cases h
  | succ fuel ih =>
    intro st st' hle hlen h
    simp only [runLoop] at h
    split at h
    · rename_i hlt
      rcases hstep : stepBody cfg st with e | st''
      · rw [hstep] at h; cases h
      · rw [hstep] at h
        rcases stepBody_iter_cases cfg hstep with ⟨h1, h2⟩ | ⟨h1, pth, h2⟩
        · exact ih st'' st' (by omega) (by rw [h2, h1]; exact hlen) h
        · refine ih st'' st' (by omega) ?_ h
          rw [h2, h1, List.length_append, hlen]
          rfl
    · rename_i hge
      cases h
      exact ⟨by omega, by omega⟩

/-- Helper: with `maxDepth = 0` every loop-body execution is
depth-guarded, so a loop started strictly within budget never
terminates: every fuel runs out. -/
lemma runLoop_maxDepth0 {σ V E : Type} [LinearOrder V] (cfg : Cfg σ V E)
    (h0 : cfg.maxDepth = 0) :
    ∀ (fuel : Nat) (st : RunState σ V), st.iter < cfg.maxIterations →
      runLoop cfg fuel st = .ok none := by
  intro fuel
  induction fuel with
  | zero => intro st _; rfl
  | succ fuel ih =>
    intro st hlt
    have hg := stepBody_guarded cfg st (by rw [h0]; exact Nat.zero_le _)
    simp only [runLoop, if_pos hlt, hg]
    exact ih _ hlt

/-- C1 (amended): a depth-guarded loop-body execution performs no
expansion, no simulation and no backpropagation and leaves everything but
the random generator state untouched — in particular it does **not**
advance `iteration_count` (the source `continue` on line 66 precedes the
increment on line 90), so it does not consume budget.  Consequently a
*terminating* run performs exactly `maxIterations` counted iterations
(simulate-plus-backpropagate passes); termination itself is not
guaranteed (see the `maxDepth = 0` counterexample). -/
theorem c1_theorem {σ V E : Type} [LinearOrder V] (cfg : Cfg σ V E) :
    (∀ st : RunState σ V,
      cfg.maxDepth ≤ depthOf st.nodes (select' cfg st.nodes st.rng).1 →
      stepBody cfg st = .ok { st with rng := (select' cfg st.nodes st.rng).2 }) ∧
    (∀ (c0 : List (String × Int)) (g0 fuel : Nat) (st' : RunState σ V),
      runLoop cfg fuel (initState cfg c0 g0) = .ok (some st') →
      st'.iter = cfg.maxIterations ∧
        st'.passLog.length = cfg.maxIterations) :=
  ⟨fun st h => stepBody_guarded cfg st h,
   fun _ _ fuel st' h =>
     runLoop_count cfg fuel _ st' (Nat.zero_le _) rfl h⟩

/-- C1 (counterexample to the claim as stated): with the configured
budget `maxIterations = 5` but `maxDepth = 0`, forty executions of the
loop body have taken place and the loop is still running — the
depth-guarded iterations did not advance the counter, so the engine
neither stops after 5 iterations in total nor terminates at all. -/
theorem c1_counterexample :
    runLoop cfgD0 40 (initState cfgD0 [] 0) = .ok none := by rfl

/-- Witness for C1: the terminating one-iteration run of `cfg1` ends with
`iteration_count = maxIterations = 1` and exactly one logged pass. -/
theorem c1_witness :
    runLoop cfg1 3 (initState cfg1 [] 0) = .ok (some st1fin) ∧
    st1fin.iter = cfg1.maxIterations ∧
    st1fin.passLog.length = cfg1.maxIterations :=
  ⟨rfl, (c1_theorem cfg1).2 [] 0 3 st1fin rfl⟩

/-- C3 (amended): with `maxDepth = 0` every selection is depth-guarded at
the root itself (depth 0 ≥ 0), and since a guarded iteration does not
advance the counter the engine never returns at all — for every fuel
bound the loop is still running, so the driver's fallback path is never
reached (rather than being exercised exactly once as claimed). -/
theorem c3_theorem {σ V E : Type} [LinearOrder V] (cfg : Cfg σ V E)
    (h0 : cfg.maxDepth = 0) (hpos : 0 < cfg.maxIterations) :
    ∀ (fuel : Nat) (c0 : List (String × Int)) (g0 : Nat),
      gen_new_scene_script cfg fuel c0 g0 = .timeout := by
  intro fuel c0 g0
  have h := runLoop_maxDepth0 cfg h0 fuel (initState cfg c0 g0) hpos
  simp only [gen_new_scene_script, generate_scene, h]

/-- C3 (counterexample to the claim as stated): with `maxDepth = 0` the
driver outcome after thirty loop-body executions is still `timeout` — the
engine has not returned `none` and the fallback was not exercised. -/
theorem c3_counterexample :
    gen_new_scene_script cfgD0 30 [] 0 = .timeout := by rfl

/-- Witness for C3: the amended theorem applied to the concrete
configuration `cfgD0` at fuel 17. -/
theorem c3_witness :
    cfgD0.maxDepth = 0 ∧ 0 < cfgD0.maxIterations ∧
    gen_new_scene_script cfgD0 17 [] 0 = .timeout :=
  ⟨rfl, by decide, c3_theorem cfgD0 rfl (by decide) 17 [] 0⟩

/-! ## C4: error propagation and the driver's fallback -/

/-- C4 (amended): an oracle error inside a loop iteration aborts the run
(the remaining budget is abandoned) and surfaces to `generate_scene`'s
caller; the driver recovers **only** from a `None` engine result, with
exactly one direct `_generate_scene` call whose own error propagates
(`GenerationFailed`); an engine exception propagates through
`gen_new_scene_script` uncaught, with no fallback call. -/
theorem c4_theorem {σ V E : Type} [LinearOrder V] (cfg : Cfg σ V E) :
    (∀ (fuel : Nat) (st : RunState σ V) (e : E),
      st.iter < cfg.maxIterations → stepBody cfg st = .error e →
      runLoop cfg (fuel + 1) st = .error e) ∧
    (∀ (fuel : Nat) (c0 : List (String × Int)) (g0 : Nat) (e : E),
      runLoop cfg fuel (initState cfg c0 g0) = .error e →
      gen_new_scene_script cfg fuel c0 g0 = .err e) ∧
    (∀ (fuel : Nat) (c0 : List (String × Int)) (g0 : Nat)
        (st : RunState σ V) (s : σ),
      generate_scene cfg fuel c0 g0 = .done none st →
      cfg.agent.generateScene st.genCalls = .ok s →
      gen_new_scene_script cfg fuel c0 g0 = .value s 1) ∧
    (∀ (fuel : Nat) (c0 : List (String × Int)) (g0 : Nat)
        (st : RunState σ V) (e : E),
      generate_scene cfg fuel c0 g0 = .done none st →
      cfg.agent.generateScene st.genCalls = .error e →
      gen_new_scene_script cfg fuel c0 g0 = .err e) := by
  refine ⟨?_, ?_, ?_, ?_⟩
  · intro fuel st e hlt hstep
    simp only [runLoop, if_pos hlt, hstep]
  · intro fuel c0 g0 e h
    simp only [gen_new_scene_script, generate_scene, h]
  · intro fuel c0 g0 st s hdone hok
    simp only [gen_new_scene_script, hdone, hok]
  · intro fuel c0 g0 st e hdone herr
    simp only [gen_new_scene_script, hdone, herr]

/-- C4 (counterexample to the claim as stated): with the agent whose
first proposal call raises, the second iteration's expansion aborts the
run and the driver surfaces the raw error — it does **not** recover with
a fallback call (which, with this agent, would have succeeded and
returned a value). -/
theorem c4_counterexample :
    gen_new_scene_script cfgE 10 [] 0 = .err () := by rfl

/-- Witness for C4: the fallback-on-`None` conjunct of the amended
theorem applied to the one-iteration run of `cfg1`, whose engine result
is `None` and whose single direct fallback call returns `true`. -/
theorem c4_witness :
    generate_scene cfg1 3 [] 0 = .done none st1fin ∧
    cfg1.agent.generateScene st1fin.genCalls = .ok true ∧
    gen_new_scene_script cfg1 3 [] 0 = .value true 1 :=
  ⟨rfl, rfl, (c4_theorem cfg1).2.2.1 3 [] 0 st1fin true rfl rfl⟩

/-! ## Effect lemmas for `update` -/

lemma update_invalid {σ V : Type} (f : Int → Nat → Nat → V)
    (ns : List (Node σ V)) (i : Nat) (s : Int) (h : ns[i]? = none) :
    update f ns i s = ns := by
  simp [update, h]

lemma update_length {σ V : Type} (f : Int → Nat → Nat → V)
    (ns : List (Node σ V)) (i : Nat) (s : Int) :
    (update f ns i s).length = ns.length := by
  rcases h : ns[i]? with _ | n
  · simp [update, h]
  · cases hp : n.parent <;> simp [update, h, hp]

lemma update_get_ne {σ V : Type} (f : Int → Nat → Nat → V)
    (ns : List (Node σ V)) (i : Nat) (s : Int) {q : Nat} (h : q ≠ i) :
    (update f ns i s)[q]? = ns[q]? := by
  rcases hg : ns[i]? with _ | n
  · simp [update, hg]
  · cases hp : n.parent <;>
      simp [update, hg, hp, List.getElem?_set_ne (Ne.symm h)]

lemma update_get_self {σ V : Type} (f : Int → Nat → Nat → V)
    (ns : List (Node σ V)) (i : Nat) (s : Int) {n : Node σ V}
    (h : ns[i]? = some n) :
    (update f ns i s)[i]? = some
      (match n.parent with
       | none => { n with visits := n.visits + 1, score := n.score + s }
       | some p =>
         { n with
           visits := n.visits + 1
           score := n.score + s
           uct := f (n.score + s) (n.visits + 1) (visitsAt ns p) }) := by
  rcases hp : n.parent with _ | p
  · rw [update_eq_of_root f ns i n s h hp,
      get_set_self _ _ _ (index_lt_of_get h), hp]
  · rw [update_eq_of_parent f ns i n p s h hp,
      get_set_self _ _ _ (index_lt_of_get h), hp]

lemma childrenAt_update {σ V : Type} (f : Int → Nat → Nat → V)
    (ns : List (Node σ V)) (i : Nat) (s : Int) (q : Nat) :
    childrenAt (update f ns i s) q = childrenAt ns q := by
  by_cases hq : q = i
  · subst hq
    rcases h : ns[q]? with _ | n
    · simp [update, h]
    · rw [childrenAt, update_get_self f ns q s h]
      cases hp : n.parent <;> simp [childrenAt, h]
  · rw [childrenAt, update_get_ne f ns i s hq, childrenAt]

lemma parentAt_update {σ V : Type} (f : Int → Nat → Nat → V)
    (ns : List (Node σ V)) (i : Nat) (s : Int) (q : Nat) :
    parentAt (update f ns i s) q = parentAt ns q := by
  by_cases hq : q = i
  · subst hq
    rcases h : ns[q]? with _ | n
    · simp [update, h]
    · rw [parentAt, update_get_self f ns q s h]
      cases hp : n.parent <;> simp [parentAt, h, hp]
  · rw [parentAt, update_get_ne f ns i s hq, parentAt]

lemma stateAt_update {σ V : Type} (f : Int → Nat → Nat → V)
    (ns : List (Node σ V)) (i : Nat) (s : Int) (q : Nat) :
    stateAt (update f ns i s) q = stateAt ns q := by
  by_cases hq : q = i
  · subst hq
    rcases h : ns[q]? with _ | n
    · simp [update, h]
    · rw [stateAt, update_get_self f ns q s h]
      cases hp : n.parent <;> simp [stateAt, h]
  · rw [stateAt, update_get_ne f ns i s hq, stateAt]

lemma visitsAt_update_self {σ V : Type} (f : Int → Nat → Nat → V)
    (ns : List (Node σ V)) (i : Nat) (s : Int) (h : i < ns.length) :
    visitsAt (update f ns i s) i = visitsAt ns i + 1 := by
  have hn : ns[i]? = some ns[i] := List.getElem?_eq_some.mpr ⟨h, rfl⟩
  rw [visitsAt, update_get_self f ns i s hn]
  cases hp : ns[i].parent <;> simp [visitsAt, hn]

lemma visitsAt_update_ne {σ V : Type} (f : Int → Nat → Nat → V)
    (ns : List (Node σ V)) (i : Nat) (s : Int) {q : Nat} (h : q ≠ i) :
    visitsAt (update f ns i s) q = visitsAt ns q := by
  rw [visitsAt, update_get_ne f ns i s h, visitsAt]

/-! ## Effect lemmas for the backpropagation fold -/

lemma foldl_update_length {σ V : Type} (f : Int → Nat → Nat → V) (s : Int) :
    ∀ (path : List Nat) (ns : List (Node σ V)),
      (path.foldl (fun ns idx => update f ns idx s) ns).length = ns.length := by
  intro path
  induction path with
  | nil => intro ns; rfl
  | cons a rest ih =>
    intro ns
    simp only [List.foldl_cons]
    rw [ih, update_length]

lemma foldl_update_children {σ V : Type} (f : Int → Nat → Nat → V) (s : Int) :
    ∀ (path : List Nat) (ns : List (Node σ V)) (q : Nat),
      childrenAt (path.foldl (fun ns idx => update f ns idx s) ns) q =
        childrenAt ns q := by
  intro path
  induction path with
  | nil => intro ns q; rfl
  | cons a rest ih =>
    intro ns q
    simp only [List.foldl_cons]
    rw [ih, childrenAt_update]

lemma foldl_update_parent {σ V : Type} (f : Int → Nat → Nat → V) (s : Int) :
    ∀ (path : List Nat) (ns : List (Node σ V)) (q : Nat),
      parentAt (path.foldl (fun ns idx => update f ns idx s) ns) q =
        parentAt ns q := by
  intro path
  induction path with
  | nil => intro ns q; rfl
  | cons a rest ih =>
    intro ns q
    simp only [List.foldl_cons]
    rw [ih, parentAt_update]

lemma foldl_update_state {σ V : Type} (f : Int → Nat → Nat → V) (s : Int) :
    ∀ (path : List Nat) (ns : List (Node σ V)) (q : Nat),
      stateAt (path.foldl (fun ns idx => update f ns idx s) ns) q =
        stateAt ns q := by
  intro path
  induction path with
  | nil => intro ns q; rfl
  | cons a rest ih =>
    intro ns q
    simp only [List.foldl_cons]
    rw [ih, stateAt_update]

/-- The backpropagation fold increments the visit count of every node on
the (duplicate-free) path exactly once and touches no other node's
count. -/
lemma foldl_update_visits {σ V : Type} (f : Int → Nat → Nat → V) (s : Int) :
    ∀ (path : List Nat) (ns : List (Node σ V)), path.Nodup →
      (∀ q ∈ path, q < ns.length) → ∀ q,
      visitsAt (path.foldl (fun ns idx => update f ns idx s) ns) q =
        visitsAt ns q + (if q ∈ path then 1 else 0) := by
  intro path
  induction path with
  | nil => intro ns _ _ q; simp
  | cons a rest ih =>
    intro ns hnd hb q
    simp only [List.foldl_cons]
    have hrest := ih (update f ns a s) (List.nodup_cons.mp hnd).2
      (fun q hq => by
        rw [update_length]
        exact hb q (List.mem_cons_of_mem _ hq))
    rw [hrest q]
    by_cases hqa : q = a
    · subst hqa
      have hnotin : q ∉ rest := (List.nodup_cons.mp hnd).1
      rw [visitsAt_update_self f ns q s (hb q (List.mem_cons_self _ _))]
      simp [hnotin]
    · rw [visitsAt_update_ne f ns a s hqa]
      by_cases hqr : q ∈ rest <;> simp [hqr, List.mem_cons, hqa]

/-! ## Cache lemmas -/

lemma cacheGet_put (c : List (String × Int)) (k : String) (v : Int)
    (k' : String) :
    cacheGet (cachePut c k v) k' = if k = k' then some v else cacheGet c k' :=
  rfl

/-! ## Well-formedness of the node arena -/

/-- Structural invariant of the arena, maintained by every run: the root
is node 0 and is the only parentless node, parent/child links agree and
point backwards/forwards respectively, and a node with children has been
visited (it was expanded, and line 69 only expands visited nodes). -/
structure TreeWF {σ V : Type} (nodes : List (Node σ V)) : Prop where
  nonempty : 0 < nodes.length
  rootParent : parentAt nodes 0 = none
  parentOfNone : ∀ i, i < nodes.length → parentAt nodes i = none → i = 0
  parentLt : ∀ i p, parentAt nodes i = some p → p < i
  parentMem : ∀ i p, parentAt nodes i = some p → i ∈ childrenAt nodes p
  childGt : ∀ i c, c ∈ childrenAt nodes i → i < c ∧ c < nodes.length
  childPar : ∀ i c, c ∈ childrenAt nodes i → parentAt nodes c = some i
  visPos : ∀ i, childrenAt nodes i ≠ [] → 1 ≤ visitsAt nodes i

lemma lt_of_childrenAt_ne_nil {σ V : Type} {nodes : List (Node σ V)}
    {p : Nat} (h : childrenAt nodes p ≠ []) : p < nodes.length := by
  rcases hg : nodes[p]? with _ | n
  · exact absurd (by simp [childrenAt, hg]) h
  · exact index_lt_of_get hg

lemma parentAt_none_of_le {σ V : Type} {nodes : List (Node σ V)} {q : Nat}
    (h : nodes.length ≤ q) : parentAt nodes q = none := by
  simp [parentAt, List.getElem?_eq_none h]

lemma childrenAt_nil_of_le {σ V : Type} {nodes : List (Node σ V)} {q : Nat}
    (h : nodes.length ≤ q) : childrenAt nodes q = [] := by
  simp [childrenAt, List.getElem?_eq_none h]

/-- The node object `MCTSNode(state, parent)` created during expansion. -/
def freshNode {σ V : Type} (u0 : V) (i : Nat) (s : σ) : Node σ V :=
  { state := some s, parent := some i, children := [], visits := 0,
    score := 0, uct := u0 }

/-! ## Effect lemmas for `addChild` and `expand` -/

lemma addChild_eq {σ V : Type} (u0 : V) (ns : List (Node σ V)) (i : Nat)
    (s : σ) {n : Node σ V} (hn : ns[i]? = some n) :
    addChild u0 ns i s =
      (ns ++ [freshNode u0 i s]).set i
        { n with children := n.children ++ [ns.length] } := by
  have h : (ns ++ [freshNode u0 i s])[i]? = some n := by
    rw [List.getElem?_append_left (index_lt_of_get hn)]; exact hn
  simp only [addChild, freshNode] at h ⊢
  rw [h]

lemma addChild_length {σ V : Type} (u0 : V) (ns : List (Node σ V)) (i : Nat)
    (s : σ) (hi : i < ns.length) :
    (addChild u0 ns i s).length = ns.length + 1 := by
  have hn : ns[i]? = some ns[i] := List.getElem?_eq_some.mpr ⟨hi, rfl⟩
  rw [addChild_eq u0 ns i s hn]
  simp

lemma addChild_get_ne {σ V : Type} (u0 : V) (ns : List (Node σ V)) (i : Nat)
    (s : σ) (hi : i < ns.length) {q : Nat} (hq : q ≠ i) (hlt : q < ns.length) :
    (addChild u0 ns i s)[q]? = ns[q]? := by
  have hn : ns[i]? = some ns[i] := List.getElem?_eq_some.mpr ⟨hi, rfl⟩
  rw [addChild_eq u0 ns i s hn, List.getElem?_set_ne (Ne.symm hq),
    List.getElem?_append_left hlt]

lemma addChild_get_self {σ V : Type} (u0 : V) (ns : List (Node σ V)) (i : Nat)
    (s : σ) {n : Node σ V} (hn : ns[i]? = some n) :
    (addChild u0 ns i s)[i]? =
      some { n with children := n.children ++ [ns.length] } := by
  rw [addChild_eq u0 ns i s hn]
  apply get_set_self
  have := index_lt_of_get hn
  simp only [List.length_append, List.length_singleton]
  omega

lemma addChild_get_new {σ V : Type} (u0 : V) (ns : List (Node σ V)) (i : Nat)
    (s : σ) (hi : i < ns.length) :
    (addChild u0 ns i s)[ns.length]? = some (freshNode u0 i s) := by
  have hn : ns[i]? = some ns[i] := List.getElem?_eq_some.mpr ⟨hi, rfl⟩
  rw [addChild_eq u0 ns i s hn, List.getElem?_set_ne (by omega),
    List.getElem?_concat_length]

lemma childrenAt_addChild_ne {σ V : Type} (u0 : V) (ns : List (Node σ V))
    (i : Nat) (s : σ) (hi : i < ns.length) {q : Nat} (hq : q ≠ i)
    (hlt : q < ns.length) :
    childrenAt (addChild u0 ns i s) q = childrenAt ns q := by
  rw [childrenAt, addChild_get_ne u0 ns i s hi hq hlt, childrenAt]

lemma childrenAt_addChild_self {σ V : Type} (u0 : V) (ns : List (Node σ V))
    (i : Nat) (s : σ) (hi : i < ns.length) :
    childrenAt (addChild u0 ns i s) i = childrenAt ns i ++ [ns.length] := by
  have hn : ns[i]? = some ns[i] := List.getElem?_eq_some.mpr ⟨hi, rfl⟩
  rw [childrenAt, addChild_get_self u0 ns i s hn]
  simp [childrenAt, hn]

lemma childrenAt_addChild_new {σ V : Type} (u0 : V) (ns : List (Node σ V))
    (i : Nat) (s : σ) (hi : i < ns.length) :
    childrenAt (addChild u0 ns i s) ns.length = [] := by
  rw [childrenAt, addChild_get_new u0 ns i s hi]
  rfl

lemma parentAt_addChild_old {σ V : Type} (u0 : V) (ns : List (Node σ V))
    (i : Nat) (s : σ) (hi : i < ns.length) {q : Nat} (hlt : q < ns.length) :
    parentAt (addChild u0 ns i s) q = parentAt ns q := by
  by_cases hq : q = i
  · subst hq
    have hn : ns[q]? = some ns[q] := List.getElem?_eq_some.mpr ⟨hlt, rfl⟩
    rw [parentAt, addChild_get_self u0 ns q s hn]
    simp [parentAt, hn]
  · rw [parentAt, addChild_get_ne u0 ns i s hi hq hlt, parentAt]

lemma parentAt_addChild_new {σ V : Type} (u0 : V) (ns : List (Node σ V))
    (i : Nat) (s : σ) (hi : i < ns.length) :
    parentAt (addChild u0 ns i s) ns.length = some i := by
  rw [parentAt, addChild_get_new u0 ns i s hi]
  rfl

lemma visitsAt_addChild_old {σ V : Type} (u0 : V) (ns : List (Node σ V))
    (i : Nat) (s : σ) (hi : i < ns.length) {q : Nat} (hlt : q < ns.length) :
    visitsAt (addChild u0 ns i s) q = visitsAt ns q := by
  by_cases hq : q = i
  · subst hq
    have hn : ns[q]? = some ns[q] := List.getElem?_eq_some.mpr ⟨hlt, rfl⟩
    rw [visitsAt, addChild_get_self u0 ns q s hn]
    simp [visitsAt, hn]
  · rw [visitsAt, addChild_get_ne u0 ns i s hi hq hlt, visitsAt]

lemma visitsAt_addChild_new {σ V : Type} (u0 : V) (ns : List (Node σ V))
    (i : Nat) (s : σ) (hi : i < ns.length) :
    visitsAt (addChild u0 ns i s) ns.length = 0 := by
  rw [visitsAt, addChild_get_new u0 ns i s hi]
  rfl

/-- `addChild` preserves the arena invariant as long as the expanded node
has been visited. -/
lemma treeWF_addChild {σ V : Type} (u0 : V) (ns : List (Node σ V)) (i : Nat)
    (s : σ) (hwf : TreeWF ns) (hi : i < ns.length)
    (hv : 1 ≤ visitsAt ns i) : TreeWF (addChild u0 ns i s) := by
  have hlen := addChild_length u0 ns i s hi
  constructor
  · omega
  · rw [parentAt_addChild_old u0 ns i s hi hwf.nonempty]
    exact hwf.rootParent
  · intro q hq hp
    rcases Nat.lt_or_ge q ns.length with hlt | hge
    · rw [parentAt_addChild_old u0 ns i s hi hlt] at hp
      exact hwf.parentOfNone q hlt hp
    · have hq' : q = ns.length := by omega
      subst hq'
      rw [parentAt_addChild_new u0 ns i s hi] at hp
      cases hp
  · intro q p hp
    rcases Nat.lt_or_ge q ns.length with hlt | hge
    · rw [parentAt_addChild_old u0 ns i s hi hlt] at hp
      exact hwf.parentLt q p hp
    · rcases Nat.lt_or_ge q (addChild u0 ns i s).length with hlt2 | hge2
      · have hq' : q = ns.length := by omega
        subst hq'
        rw [parentAt_addChild_new u0 ns i s hi] at hp
        cases hp
        exact hi
      · rw [parentAt_none_of_le (by omega)] at hp
        cases hp
  · intro q p hp
    rcases Nat.lt_or_ge q ns.length with hlt | hge
    · rw [parentAt_addChild_old u0 ns i s hi hlt] at hp
      have hmem := hwf.parentMem q p hp
      have hple : p < ns.length :=
        lt_of_childrenAt_ne_nil (fun hnil => by rw [hnil] at hmem; cases hmem)
      by_cases hpi : p = i
      · subst hpi
        rw [childrenAt_addChild_self u0 ns p s hi]
        exact List.mem_append_left _ hmem
      · rw [childrenAt_addChild_ne u0 ns i s hi hpi hple]
        exact hmem
    · rcases Nat.lt_or_ge q (addChild u0 ns i s).length with hlt2 | hge2
      · have hq' : q = ns.length := by omega
        subst hq'
        rw [parentAt_addChild_new u0 ns i s hi] at hp
        cases hp
        rw [childrenAt_addChild_self u0 ns i s hi]
        exact List.mem_append_right _ (List.mem_singleton_self _)
      · rw [parentAt_none_of_le (by omega)] at hp
        cases hp
  · intro q c hc
    rcases Nat.lt_or_ge q ns.length with hlt | hge
    · by_cases hqi : q = i
      · subst hqi
        rw [childrenAt_addChild_self u0 ns q s hi] at hc
        rcases List.mem_append.mp hc with hc' | hc'
        · have := hwf.childGt q c hc'
          omega
        · rcases List.mem_singleton.mp hc' with rfl
          omega
      · rw [childrenAt_addChild_ne u0 ns i s hi hqi hlt] at hc
        have := hwf.childGt q c hc
        omega
    · rcases Nat.lt_or_ge q (addChild u0 ns i s).length with hlt2 | hge2
      · have hq' : q = ns.length := by omega
        subst hq'
        rw [childrenAt_addChild_new u0 ns i s hi] at hc
        cases hc
      · rw [childrenAt_nil_of_le (by omega)] at hc
        cases hc
  · intro q c hc
    rcases Nat.lt_or_ge q ns.length with hlt | hge
    · by_cases hqi : q = i
      · subst hqi
        rw [childrenAt_addChild_self u0 ns q s hi] at hc
        rcases List.mem_append.mp hc with hc' | hc'
        · have hclen := (hwf.childGt q c hc').2
          rw [parentAt_addChild_old u0 ns q s hi hclen]
          exact hwf.childPar q c hc'
        · rcases List.mem_singleton.mp hc' with rfl
          exact parentAt_addChild_new u0 ns q s hi
      · rw [childrenAt_addChild_ne u0 ns i s hi hqi hlt] at hc
        have hclen := (hwf.childGt q c hc).2
        rw [parentAt_addChild_old u0 ns i s hi hclen]
        exact hwf.childPar q c hc
    · rcases Nat.lt_or_ge q (addChild u0 ns i s).length with hlt2 | hge2
      · have hq' : q = ns.length := by omega
        subst hq'
        rw [childrenAt_addChild_new u0 ns i s hi] at hc
        cases hc
      · rw [childrenAt_nil_of_le (by omega)] at hc
        cases hc
  · intro q hne
    rcases Nat.lt_or_ge q ns.length with hlt | hge
    · rw [visitsAt_addChild_old u0 ns i s hi hlt]
      by_cases hqi : q = i
      · subst hqi; exact hv
      · rw [childrenAt_addChild_ne u0 ns i s hi hqi hlt] at hne
        exact hwf.visPos q hne
    · rcases Nat.lt_or_ge q (addChild u0 ns i s).length with hlt2 | hge2
      · have hq' : q = ns.length := by omega
        subst hq'
        rw [childrenAt_addChild_new u0 ns i s hi] at hne
        exact absurd rfl hne
      · rw [childrenAt_nil_of_le (by omega)] at hne
        exact absurd rfl hne

lemma visitsAt_zero_of_le {σ V : Type} {nodes : List (Node σ V)} {q : Nat}
    (h : nodes.length ≤ q) : visitsAt nodes q = 0 := by
  simp [visitsAt, List.getElem?_eq_none h]

/-! ## Effect lemmas for `expand` -/

lemma expand_cons {σ V : Type} (u0 : V) (ns : List (Node σ V)) (i : Nat)
    (s : σ) (rest : List σ) :
    expand u0 ns i (s :: rest) = expand u0 (addChild u0 ns i s) i rest := rfl

lemma expand_length {σ V : Type} (u0 : V) (i : Nat) :
    ∀ (sts : List σ) (ns : List (Node σ V)), i < ns.length →
      (expand u0 ns i sts).length = ns.length + sts.length := by
  intro sts
  induction sts with
  | nil => intro ns _; rfl
  | cons s rest ih =>
    intro ns hi
    rw [expand_cons, ih _ (by rw [addChild_length u0 ns i s hi]; omega),
      addChild_length u0 ns i s hi]
    simp only [List.length_cons]
    omega

lemma expand_get_ne {σ V : Type} (u0 : V) (i : Nat) :
    ∀ (sts : List σ) (ns : List (Node σ V)), i < ns.length →
      ∀ q, q ≠ i → q < ns.length → (expand u0 ns i sts)[q]? = ns[q]? := by
  intro sts
  induction sts with
  | nil => intro ns _ q _ _; rfl
  | cons s rest ih =>
    intro ns hi q hq hlt
    rw [expand_cons,
      ih _ (by rw [addChild_length u0 ns i s hi]; omega) q hq
        (by rw [addChild_length u0 ns i s hi]; omega),
      addChild_get_ne u0 ns i s hi hq hlt]

lemma childrenAt_expand_ne {σ V : Type} (u0 : V) (i : Nat)
    (sts : List σ) (ns : List (Node σ V)) (hi : i < ns.length)
    {q : Nat} (hq : q ≠ i) (hlt : q < ns.length) :
    childrenAt (expand u0 ns i sts) q = childrenAt ns q := by
  rw [childrenAt, expand_get_ne u0 i sts ns hi q hq hlt, childrenAt]

lemma childrenAt_expand_self {σ V : Type} (u0 : V) (i : Nat) :
    ∀ (sts : List σ) (ns : List (Node σ V)), i < ns.length →
      childrenAt (expand u0 ns i sts) i =
        childrenAt ns i ++ List.range' ns.length sts.length := by
  intro sts
  induction sts with
  | nil => intro ns _; simp [expand]
  | cons s rest ih =>
    intro ns hi
    rw [expand_cons, ih _ (by rw [addChild_length u0 ns i s hi]; omega),
      childrenAt_addChild_self u0 ns i s hi, addChild_length u0 ns i s hi,
      List.length_cons, List.range'_succ]
    simp

lemma visitsAt_expand_old {σ V : Type} (u0 : V) (i : Nat) :
    ∀ (sts : List σ) (ns : List (Node σ V)), i < ns.length →
      ∀ q, q < ns.length → visitsAt (expand u0 ns i sts) q = visitsAt ns q := by
  intro sts
  induction sts with
  | nil => intro ns _ q _; rfl
  | cons s rest ih =>
    intro ns hi q hlt
    rw [expand_cons,
      ih _ (by rw [addChild_length u0 ns i s hi]; omega) q
        (by rw [addChild_length u0 ns i s hi]; omega),
      visitsAt_addChild_old u0 ns i s hi hlt]

lemma visitsAt_expand_new {σ V : Type} (u0 : V) (i : Nat) :
    ∀ (sts : List σ) (ns : List (Node σ V)), i < ns.length →
      ∀ q, ns.length ≤ q → visitsAt (expand u0 ns i sts) q = 0 := by
  intro sts
  induction sts with
  | nil => intro ns _ q hq; exact visitsAt_zero_of_le hq
  | cons s rest ih =>
    intro ns hi q hq
    rw [expand_cons]
    rcases Nat.eq_or_lt_of_le hq with hq' | hq'
    · rw [visitsAt_expand_old u0 i rest _
        (by rw [addChild_length u0 ns i s hi]; omega) q
        (by rw [addChild_length u0 ns i s hi]; omega), ← hq']
      exact visitsAt_addChild_new u0 ns i s hi
    · exact ih _ (by rw [addChild_length u0 ns i s hi]; omega) q
        (by rw [addChild_length u0 ns i s hi]; omega)

lemma expand_get_new {σ V : Type} (u0 : V) (i : Nat) :
    ∀ (sts : List σ) (ns : List (Node σ V)), i < ns.length →
      ∀ (k : Nat) (s' : σ), sts[k]? = some s' →
        (expand u0 ns i sts)[ns.length + k]? = some (freshNode u0 i s') := by
  intro sts
  induction sts with
  | nil => intro ns _ k s' h; cases h
  | cons s rest ih =>
    intro ns hi k s' h
    rw [expand_cons]
    match k, h with
    | 0, h =>
      have hs : s = s' := by simpa using h
      subst hs
      rw [Nat.add_zero,
        expand_get_ne u0 i rest _ (by rw [addChild_length u0 ns i s hi]; omega)
          ns.length (by omega) (by rw [addChild_length u0 ns i s hi]; omega)]
      exact addChild_get_new u0 ns i s hi
    | k + 1, h =>
      have hrw : ns.length + (k + 1) = (addChild u0 ns i s).length + k := by
        rw [addChild_length u0 ns i s hi]; omega
      rw [hrw]
      exact ih _ (by rw [addChild_length u0 ns i s hi]; omega) k s'
        (by simpa using h)

lemma expand_treeWF {σ V : Type} (u0 : V) (i : Nat) :
    ∀ (sts : List σ) (ns : List (Node σ V)), TreeWF ns → i < ns.length →
      1 ≤ visitsAt ns i → TreeWF (expand u0 ns i sts) := by
  intro sts
  induction sts with
  | nil => intro ns hwf _ _; exact hwf
  | cons s rest ih =>
    intro ns hwf hi hv
    rw [expand_cons]
    exact ih _ (treeWF_addChild u0 ns i s hwf hi hv)
      (by rw [addChild_length u0 ns i s hi]; omega)
      (by rw [visitsAt_addChild_old u0 ns i s hi hi]; exact hv)

/-! ## The backpropagation chain -/

/-- Under the arena invariant, the parent chain from a valid node is
duplicate-free, stays within the arena, only descends in index, and ends
at the root (index 0 is always on it). -/
lemma chainToRoot_spec {σ V : Type} {nodes : List (Node σ V)}
    (hwf : TreeWF nodes) :
    ∀ (fuel j : Nat), j < nodes.length → j ≤ fuel →
      (∀ q ∈ chainToRoot nodes fuel j, q ≤ j ∧ q < nodes.length) ∧
      (chainToRoot nodes fuel j).Nodup ∧ 0 ∈ chainToRoot nodes fuel j := by
  intro fuel
  induction fuel with
  | zero =>
    intro j hj hle
    have hj0 : j = 0 := by omega
    subst hj0
    refine ⟨?_, ?_, ?_⟩
    · intro q hq
      rcases List.mem_singleton.mp hq with rfl
      exact ⟨le_refl _, hj⟩
    · simp [chainToRoot]
    · simp [chainToRoot]
  | succ fuel ih =>
    intro j hj hle
    rcases hp : parentAt nodes j with _ | p
    · have hj0 : j = 0 := hwf.parentOfNone j hj hp
      subst hj0
      refine ⟨?_, ?_, ?_⟩
      · intro q hq
        simp only [chainToRoot, hp] at hq
        rcases List.mem_singleton.mp hq with rfl
        exact ⟨le_refl _, hj⟩
      · simp [chainToRoot, hp]
      · simp [chainToRoot, hp]
    · have hplt : p < j := hwf.parentLt j p hp
      have hpmem := hwf.parentMem j p hp
      have hplen : p < nodes.length :=
        lt_of_childrenAt_ne_nil (fun hnil => by rw [hnil] at hpmem; cases hpmem)
      rcases ih p hplen (by omega) with ⟨hbound, hnd, hroot⟩
      refine ⟨?_, ?_, ?_⟩
      · intro q hq
        simp only [chainToRoot, hp] at hq
        rcases List.mem_cons.mp hq with rfl | hq'
        · exact ⟨le_refl _, hj⟩
        · have := hbound q hq'
          exact ⟨by omega, this.2⟩
      · simp only [chainToRoot, hp]
        refine List.nodup_cons.mpr ⟨?_, hnd⟩
        intro hmem
        have := hbound j hmem
        omega
      · simp only [chainToRoot, hp]
        exact List.mem_cons_of_mem _ hroot

/-! ## The selection loop -/

/-- Under the arena invariant, `_select` always returns a valid, childless
node: descent stops at a leaf, and a randomly chosen unvisited child is
childless because only visited nodes are ever expanded. -/
lemma selectLoop_spec {σ V E : Type} [LinearOrder V] (cfg : Cfg σ V E)
    {nodes : List (Node σ V)} (hwf : TreeWF nodes) :
    ∀ (fuel i g : Nat), i < nodes.length → nodes.length ≤ fuel + i →
      (selectLoop cfg nodes fuel i g).1 < nodes.length ∧
      childrenAt nodes (selectLoop cfg nodes fuel i g).1 = [] := by
  intro fuel
  induction fuel with
  | zero =>
    intro i g hi hle
    exact absurd hle (by omega)
  | succ fuel ih =>
    intro i g hi hle
    obtain ⟨n, hn⟩ : ∃ n, nodes[i]? = some n :=
      ⟨nodes[i], List.getElem?_eq_some.mpr ⟨hi, rfl⟩⟩
    have hchAt : childrenAt nodes i = n.children := by simp [childrenAt, hn]
    by_cases hch : n.children = []
    · simp only [selectLoop, hn, if_pos hch]
      exact ⟨hi, by rw [hchAt, hch]⟩
    · by_cases hun : n.children.filter (fun c => decide (visitsAt nodes c = 0)) = []
      · rcases hch' : n.children with _ | ⟨c, cs⟩
        · exact absurd hch' hch
        · have hsb : select_best_child cfg.explorationWeight cfg.uct0 nodes i =
              some (pickMax cfg.uct0 nodes c cs) := by
            simp [select_best_child, hn, hch']
          have hjmem : pickMax cfg.uct0 nodes c cs ∈ n.children := by
            rcases pickMax_spec cfg.uct0 nodes cs c with ⟨k, hk, -, -⟩
            rw [hch']
            exact List.getElem?_mem hk
          have hjmem' : pickMax cfg.uct0 nodes c cs ∈ childrenAt nodes i := by
            rw [hchAt]; exact hjmem
          have hij := hwf.childGt i _ hjmem'
          simp only [selectLoop, hn, if_neg hch, if_pos hun, hsb]
          exact ih _ g hij.2 (by omega)
      · have hlen : 0 < (n.children.filter
            (fun c => decide (visitsAt nodes c = 0))).length :=
          List.length_pos.mpr hun
        have hidx : (cfg.rand g).1 % (n.children.filter
              (fun c => decide (visitsAt nodes c = 0))).length <
            (n.children.filter (fun c => decide (visitsAt nodes c = 0))).length :=
          Nat.mod_lt _ hlen
        have helt : (n.children.filter (fun c => decide (visitsAt nodes c = 0)))[
              (cfg.rand g).1 % (n.children.filter
                (fun c => decide (visitsAt nodes c = 0))).length]? =
            some ((n.children.filter (fun c => decide (visitsAt nodes c = 0)))[
              (cfg.rand g).1 % (n.children.filter
                (fun c => decide (visitsAt nodes c = 0))).length]) :=
          List.getElem?_eq_some.mpr ⟨hidx, rfl⟩
        have hcmem := List.getElem_mem hidx
        have hcfacts := List.mem_filter.mp hcmem
        have hcvis : visitsAt nodes
            ((n.children.filter (fun c => decide (visitsAt nodes c = 0)))[
              (cfg.rand g).1 % (n.children.filter
                (fun c => decide (visitsAt nodes c = 0))).length]) = 0 :=
          of_decide_eq_true hcfacts.2
        have hcch := hwf.childGt i _ (by rw [hchAt]; exact hcfacts.1)
        have hcnil : childrenAt nodes
            ((n.children.filter (fun c => decide (visitsAt nodes c = 0)))[
              (cfg.rand g).1 % (n.children.filter
                (fun c => decide (visitsAt nodes c = 0))).length]) = [] := by
          by_contra hne
          have := hwf.visPos _ hne
          omega
        simp only [selectLoop, hn, if_neg hch, if_neg hun, helt, Option.getD_some]
        exact ⟨hcch.2, hcnil⟩

/-- `_select(root)` returns a valid childless node. -/
lemma select'_spec {σ V E : Type} [LinearOrder V] (cfg : Cfg σ V E)
    {nodes : List (Node σ V)} (hwf : TreeWF nodes) (g : Nat) :
    (select' cfg nodes g).1 < nodes.length ∧
    childrenAt nodes (select' cfg nodes g).1 = [] :=
  selectLoop_spec cfg hwf nodes.length 0 g hwf.nonempty (by omega)

/-! ## Characterizations of the loop phases -/

lemma expandPhase_ok_cases {σ V E : Type} [LinearOrder V] {cfg : Cfg σ V E}
    {nodes : List (Node σ V)} {i0 g k : Nat}
    {nodes1 : List (Node σ V)} {j g2 k2 : Nat}
    (h : expandPhase cfg nodes i0 g k = .ok (nodes1, j, g2, k2)) :
    (¬ 0 < visitsAt nodes i0 ∧ nodes1 = nodes ∧ j = i0 ∧ g2 = g ∧ k2 = k) ∨
    (0 < visitsAt nodes i0 ∧ ∃ states k',
      getPossibleStates cfg.agent k = .ok (states, k') ∧
      nodes1 = expand cfg.uct0 nodes i0 states ∧ k2 = k' ∧
      ((childrenAt nodes1 i0 = [] ∧ j = i0 ∧ g2 = g) ∨
       (childrenAt nodes1 i0 ≠ [] ∧ j ∈ childrenAt nodes1 i0 ∧
         g2 = (cfg.rand g).2))) := by
  simp only [expandPhase] at h
  split at h
  · rename_i hv
    split at h
    · exact Except.noConfusion h
    · rename_i out states k' heq
      split at h
      · rename_i hch
        cases h
        exact Or.inr ⟨hv, states, k2, heq, rfl, rfl, Or.inl ⟨hch, rfl, rfl⟩⟩
      · rename_i hch
        cases h
        have hlen : 0 < (childrenAt (expand cfg.uct0 nodes i0 states) i0).length :=
          List.length_pos.mpr hch
        have hidx : (cfg.rand g).1 %
            (childrenAt (expand cfg.uct0 nodes i0 states) i0).length <
            (childrenAt (expand cfg.uct0 nodes i0 states) i0).length :=
          Nat.mod_lt _ hlen
        have helt := List.getElem?_eq_some.mpr ⟨hidx, rfl⟩
        refine Or.inr ⟨hv, states, k2, heq, rfl, rfl, Or.inr ⟨hch, ?_, rfl⟩⟩
        rw [helt, Option.getD_some]
        exact List.getElem_mem hidx
  · rename_i hv
    cases h
    exact Or.inl ⟨hv, rfl, rfl, rfl, rfl⟩

lemma simulatePhase_ok_cases {σ V E : Type} {cfg : Cfg σ V E}
    {cache : List (String × Int)} {stt : Option σ} {log : List σ}
    {score : Int} {cache2 : List (String × Int)} {log2 : List σ}
    (h : simulatePhase cfg cache stt log = .ok (score, cache2, log2)) :
    (cacheGet cache (cfg.keyOf stt) = some score ∧ cache2 = cache ∧
      log2 = log) ∨
    (cacheGet cache (cfg.keyOf stt) = none ∧ stt = none ∧ score = 0 ∧
      cache2 = cachePut cache (cfg.keyOf stt) 0 ∧ log2 = log) ∨
    (∃ x, stt = some x ∧ cacheGet cache (cfg.keyOf stt) = none ∧
      cfg.agent.evaluateScene x = .ok score ∧
      cache2 = cachePut cache (cfg.keyOf stt) score ∧ log2 = log ++ [x]) := by
  simp only [simulatePhase] at h
  split at h
  · rename_i v hcg
    cases h
    exact Or.inl ⟨hcg, rfl, rfl⟩
  · rename_i hcg
    split at h
    · exact Except.noConfusion h
    · rename_i res v hsimeq
      cases h
      rcases hst : stt with _ | x
      · subst hst
        simp only [simulate] at hsimeq
        cases hsimeq
        exact Or.inr (Or.inl ⟨hcg, rfl, rfl, rfl, rfl⟩)
      · subst hst
        simp only [simulate] at hsimeq
        exact Or.inr (Or.inr ⟨x, rfl, hcg, hsimeq, rfl, rfl⟩)

lemma stepBody_ok_cases {σ V E : Type} [LinearOrder V] {cfg : Cfg σ V E}
    {st st' : RunState σ V} (h : stepBody cfg st = .ok st') :
    (cfg.maxDepth ≤ depthOf st.nodes (select' cfg st.nodes st.rng).1 ∧
      st' = { st with rng := (select' cfg st.nodes st.rng).2 }) ∨
    (∃ nodes1 j g2 k2 score cache2 log2,
      ¬ cfg.maxDepth ≤ depthOf st.nodes (select' cfg st.nodes st.rng).1 ∧
      expandPhase cfg st.nodes (select' cfg st.nodes st.rng).1
        (select' cfg st.nodes st.rng).2 st.genCalls = .ok (nodes1, j, g2, k2) ∧
      simulatePhase cfg st.cache (stateAt nodes1 j) st.scoreLog =
        .ok (score, cache2, log2) ∧
      st' = { nodes := (chainToRoot nodes1 j j).foldl
                (fun ns idx => update cfg.uctF ns idx score) nodes1,
              cache := cache2, rng := g2, iter := st.iter + 1,
              genCalls := k2, scoreLog := log2,
              passLog := st.passLog ++ [chainToRoot nodes1 j j] }) := by
  simp only [stepBody] at h
  split at h
  · rename_i hd
    cases h
    exact Or.inl ⟨hd, rfl⟩
  · rename_i hd
    split at h
    · exact Except.noConfusion h
    · rename_i out nodes1 j g2 k2 hex
      split at h
      · exact Except.noConfusion h
      · rename_i out2 score cache2 log2 hsim
        cases h
        exact Or.inr ⟨nodes1, j, g2, k2, score, cache2, log2, hd, hex, hsim,
          rfl⟩

/-! ## Monotonicity and invariance of the fold -/

lemma visitsAt_update_mono {σ V : Type} (f : Int → Nat → Nat → V)
    (ns : List (Node σ V)) (i : Nat) (s : Int) (q : Nat) :
    visitsAt ns q ≤ visitsAt (update f ns i s) q := by
  by_cases hq : q = i
  · subst hq
    by_cases hlt : q < ns.length
    · rw [visitsAt_update_self f ns q s hlt]; omega
    · rw [update_invalid f ns q s (List.getElem?_eq_none (by omega))]
  · rw [visitsAt_update_ne f ns i s hq]

lemma foldl_update_visits_mono {σ V : Type} (f : Int → Nat → Nat → V)
    (s : Int) :
    ∀ (path : List Nat) (ns : List (Node σ V)) (q : Nat),
      visitsAt ns q ≤
        visitsAt (path.foldl (fun ns idx => update f ns idx s) ns) q := by
  intro path
  induction path with
  | nil => intro ns q; exact le_refl _
  | cons a rest ih =>
    intro ns q
    simp only [List.foldl_cons]
    exact le_trans (visitsAt_update_mono f ns a s q) (ih _ q)

/-- The backpropagation fold preserves the arena invariant: it changes no
links and never decreases a visit count. -/
lemma foldl_update_treeWF {σ V : Type} (f : Int → Nat → Nat → V) (s : Int)
    (path : List Nat) (ns : List (Node σ V)) (hwf : TreeWF ns) :
    TreeWF (path.foldl (fun ns idx => update f ns idx s) ns) := by
  constructor
  · rw [foldl_update_length]; exact hwf.nonempty
  · rw [foldl_update_parent]; exact hwf.rootParent
  · intro i hi hp
    rw [foldl_update_length] at hi
    rw [foldl_update_parent] at hp
    exact hwf.parentOfNone i hi hp
  · intro i p hp
    rw [foldl_update_parent] at hp
    exact hwf.parentLt i p hp
  · intro i p hp
    rw [foldl_update_parent] at hp
    rw [foldl_update_children]
    exact hwf.parentMem i p hp
  · intro i c hc
    rw [foldl_update_children] at hc
    rw [foldl_update_length]
    exact hwf.childGt i c hc
  · intro i c hc
    rw [foldl_update_children] at hc
    rw [foldl_update_parent]
    exact hwf.childPar i c hc
  · intro i hne
    rw [foldl_update_children] at hne
    exact le_trans (hwf.visPos i hne) (foldl_update_visits_mono f s path ns i)

/-! ## The run-state invariant -/

/-- Invariant of the run state, established at `initState` and preserved
by every loop-body execution: the arena is well formed, the pass log has
one (root-containing, in-arena) entry per counted iteration, every node's
visit count equals the number of logged passes through it, and every
state ever sent to the scoring oracle is cached, with pairwise-distinct
canonical keys. -/
structure StInv {σ V E : Type} (cfg : Cfg σ V E) (st : RunState σ V) :
    Prop where
  tree : TreeWF st.nodes
  passLen : st.passLog.length = st.iter
  passValid : ∀ p ∈ st.passLog, ∀ q ∈ p, q < st.nodes.length
  passRoot : ∀ p ∈ st.passLog, 0 ∈ p
  passCount : ∀ q, q < st.nodes.length →
    visitsAt st.nodes q = st.passLog.countP (fun p => decide (q ∈ p))
  cacheMem : ∀ s ∈ st.scoreLog, cacheGet st.cache (cfg.keyOf (some s)) ≠ none
  logKeys : st.scoreLog.Pairwise
    (fun a b => cfg.keyOf (some a) ≠ cfg.keyOf (some b))

lemma initState_inv {σ V E : Type} (cfg : Cfg σ V E)
    (c0 : List (String × Int)) (g0 : Nat) :
    StInv cfg (initState cfg c0 g0) := by
  constructor
  · constructor
    · simp [initState]
    · rfl
    · intro i hi _
      simp [initState] at hi
      omega
    · intro i p hp
      rcases i with _ | i <;> simp [parentAt, initState] at hp
    · intro i p hp
      rcases i with _ | i <;> simp [parentAt, initState] at hp
    · intro i c hc
      rcases i with _ | i <;> simp [childrenAt, initState] at hc
    · intro i c hc
      rcases i with _ | i <;> simp [childrenAt, initState] at hc
    · intro i hne
      rcases i with _ | i <;> simp [childrenAt, initState] at hne
  · rfl
  · intro p hp; cases hp
  · intro p hp; cases hp
  · intro q hq
    simp [initState] at hq
    subst hq
    rfl
  · intro s hs; cases hs
  · exact List.Pairwise.nil

/-- Consolidated facts about the expansion phase, starting from a valid
selected node in a well-formed arena. -/
lemma expandPhase_facts {σ V E : Type} [LinearOrder V] {cfg : Cfg σ V E}
    {nodes : List (Node σ V)} {i0 g k : Nat}
    {nodes1 : List (Node σ V)} {j g2 k2 : Nat}
    (hwf : TreeWF nodes) (hi0 : i0 < nodes.length)
    (h : expandPhase cfg nodes i0 g k = .ok (nodes1, j, g2, k2)) :
    TreeWF nodes1 ∧ j < nodes1.length ∧ nodes.length ≤ nodes1.length ∧
    (∀ q, q < nodes.length → visitsAt nodes1 q = visitsAt nodes q) ∧
    (∀ q, nodes.length ≤ q → visitsAt nodes1 q = 0) ∧
    (∀ q, q ≠ i0 → q < nodes.length →
      childrenAt nodes1 q = childrenAt nodes q) := by
  rcases expandPhase_ok_cases h with
    ⟨-, rfl, rfl, -, -⟩ | ⟨hv, states, k', -, rfl, -, hsub⟩
  · exact ⟨hwf, hi0, le_refl _, fun _ _ => rfl,
      fun q hq => visitsAt_zero_of_le hq, fun _ _ _ => rfl⟩
  · have hwf1 : TreeWF (expand cfg.uct0 nodes i0 states) :=
      expand_treeWF cfg.uct0 i0 states nodes hwf hi0 hv
    have hlen1 : nodes.length ≤ (expand cfg.uct0 nodes i0 states).length := by
      rw [expand_length cfg.uct0 i0 states nodes hi0]; omega
    refine ⟨hwf1, ?_, hlen1,
      fun q hq => visitsAt_expand_old cfg.uct0 i0 states nodes hi0 q hq,
      fun q hq => visitsAt_expand_new cfg.uct0 i0 states nodes hi0 q hq,
      fun q hq hlt => childrenAt_expand_ne cfg.uct0 i0 states nodes hi0 hq hlt⟩
    rcases hsub with ⟨-, rfl, -⟩ | ⟨-, hjmem, -⟩
    · omega
    · exact (hwf1.childGt i0 j hjmem).2

/-- The loop body preserves the run-state invariant. -/
lemma stepBody_inv {σ V E : Type} [LinearOrder V] {cfg : Cfg σ V E}
    {st st' : RunState σ V} (hs : StInv cfg st)
    (h : stepBody cfg st = .ok st') : StInv cfg st' := by
  rcases stepBody_ok_cases h with ⟨-, rfl⟩ |
    ⟨nodes1, j, g2, k2, score, cache2, log2, -, hex, hsim, rfl⟩
  · exact ⟨hs.tree, hs.passLen, hs.passValid, hs.passRoot, hs.passCount,
      hs.cacheMem, hs.logKeys⟩
  · have hsel := select'_spec cfg hs.tree st.rng
    rcases expandPhase_facts hs.tree hsel.1 hex with
      ⟨hwf1, hjlt, hlen1, hvold, hvnew, hchne⟩
    rcases chainToRoot_spec hwf1 j j hjlt (le_refl _) with
      ⟨hcbound, hcnd, hcroot⟩
    have hlen2 : ((chainToRoot nodes1 j j).foldl
        (fun ns idx => update cfg.uctF ns idx score) nodes1).length =
        nodes1.length := foldl_update_length cfg.uctF score _ nodes1
    constructor
    · exact foldl_update_treeWF cfg.uctF score _ nodes1 hwf1
    · simp only [List.length_append, List.length_singleton]
      rw [hs.passLen]
    · intro p hp q hq
      simp only [hlen2]
      rcases List.mem_append.mp hp with hp' | hp'
      · exact lt_of_lt_of_le (hs.passValid p hp' q hq) hlen1
      · rcases List.mem_singleton.mp hp' with rfl
        exact (hcbound q hq).2
    · intro p hp
      rcases List.mem_append.mp hp with hp' | hp'
      · exact hs.passRoot p hp'
      · rcases List.mem_singleton.mp hp' with rfl
        exact hcroot
    · intro q hq
      simp only [hlen2] at hq
      rw [foldl_update_visits cfg.uctF score _ nodes1 hcnd
        (fun r hr => (hcbound r hr).2) q]
      rw [List.countP_append, List.countP_cons, List.countP_nil]
      by_cases hqp : q ∈ chainToRoot nodes1 j j
      · rcases Nat.lt_or_ge q st.nodes.length with hlt | hge
        · rw [hvold q hlt, hs.passCount q hlt]
          simp [hqp]
        · rw [hvnew q hge]
          have hzero : st.passLog.countP (fun p => decide (q ∈ p)) = 0 :=
            List.countP_eq_zero.mpr (fun p hp => by
              simp only [decide_eq_true_eq]
              intro hqin
              have := hs.passValid p hp q hqin
              omega)
          rw [hzero]
          simp [hqp]
      · rcases Nat.lt_or_ge q st.nodes.length with hlt | hge
        · rw [hvold q hlt, hs.passCount q hlt]
          simp [hqp]
        · rw [hvnew q hge]
          have hzero : st.passLog.countP (fun p => decide (q ∈ p)) = 0 :=
            List.countP_eq_zero.mpr (fun p hp => by
              simp only [decide_eq_true_eq]
              intro hqin
              have := hs.passValid p hp q hqin
              omega)
          rw [hzero]
          simp [hqp]
    · intro s hsmem
      rcases simulatePhase_ok_cases hsim with
        ⟨-, rfl, rfl⟩ | ⟨-, -, -, rfl, rfl⟩ | ⟨x, hstx, hmiss, -, rfl, rfl⟩
      · exact hs.cacheMem s hsmem
      · rw [cacheGet_put]
        split
        · simp
        · exact hs.cacheMem s hsmem
      · rcases List.mem_append.mp hsmem with hs' | hs'
        · rw [cacheGet_put]
          split
          · simp
          · exact hs.cacheMem s hs'
        · rcases List.mem_singleton.mp hs' with rfl
          rw [cacheGet_put, hstx, if_pos rfl]
          simp
    · rcases simulatePhase_ok_cases hsim with
        ⟨-, rfl, rfl⟩ | ⟨-, -, -, rfl, rfl⟩ | ⟨x, hstx, hmiss, -, rfl, rfl⟩
      · exact hs.logKeys
      · exact hs.logKeys
      · rw [List.pairwise_append]
        refine ⟨hs.logKeys, List.pairwise_singleton _ _, ?_⟩
        intro a ha b hb
        rcases List.mem_singleton.mp hb with rfl
        intro hkey
        apply hs.cacheMem a ha
        rw [hkey, ← hstx]
        exact hmiss

/-! ## Reachability -/

/-- Reachability between run states through executions of the loop body
under the loop condition. -/
inductive Reach {σ V E : Type} [LinearOrder V] (cfg : Cfg σ V E)
    (start : RunState σ V) : RunState σ V → Prop where
  | refl : Reach cfg start start
  | step {st' st'' : RunState σ V} : Reach cfg start st' →
      st'.iter < cfg.maxIterations → stepBody cfg st' = .ok st'' →
      Reach cfg start st''

lemma reach_inv {σ V E : Type} [LinearOrder V] {cfg : Cfg σ V E}
    {st st' : RunState σ V} (hs : StInv cfg st) (h : Reach cfg st st') :
    StInv cfg st' := by
  induction h with
  | refl => exact hs
  | step _ _ hstep ih => exact stepBody_inv ih hstep

/-- A front extension of a reachability derivation. -/
lemma reach_prepend {σ V E : Type} [LinearOrder V] {cfg : Cfg σ V E}
    {st st'' st' : RunState σ V} (hlt : st.iter < cfg.maxIterations)
    (hstep : stepBody cfg st = .ok st'') (h : Reach cfg st'' st') :
    Reach cfg st st' := by
  induction h with
  | refl => exact Reach.step (Reach.refl) hlt hstep
  | step _ hlt' hstep' ih => exact Reach.step ih hlt' hstep'

/-- A terminating `runLoop` execution reaches its final state. -/
lemma runLoop_reach {σ V E : Type} [LinearOrder V] (cfg : Cfg σ V E) :
    ∀ (fuel : Nat) (st st' : RunState σ V),
      runLoop cfg fuel st = .ok (some st') → Reach cfg st st' := by
  intro fuel
  induction fuel with
  | zero => intro st st' h; cases h
  | succ fuel ih =>
    intro st st' h
    simp only [runLoop] at h
    split at h
    · rename_i hlt
      rcases hstep : stepBody cfg st with e | st''
      · rw [hstep] at h; cases h
      · rw [hstep] at h
        exact reach_prepend hlt hstep (ih st'' st' h)
    · cases h
      exact Reach.refl

/-! ## Concrete run states for the reachability witnesses -/

/-- State of the `cfgW` run after its first counted iteration (the root
was simulated and backpropagated). -/
def stA : RunState Bool Int :=
  { nodes := [{ state := none, parent := none, children := [], visits := 1,
                score := 0, uct := 0 }],
    cache := [("None", 0)], rng := 0, iter := 1, genCalls := 0,
    scoreLog := [], passLog := [[0]] }

/-- Final state of the two-iteration `cfgW` run: the root was expanded
with two candidates and child 1 was simulated (score 5) and
backpropagated. -/
def st2fin : RunState Bool Int :=
  { nodes := [{ state := none, parent := none, children := [1, 2],
                visits := 2, score := 5, uct := 0 },
              { state := some true, parent := some 0, children := [],
                visits := 1, score := 5, uct := 5 },
              { state := some true, parent := some 0, children := [],
                visits := 0, score := 0, uct := 0 }],
    cache := [("True", 5), ("None", 0)], rng := 1, iter := 2, genCalls := 2,
    scoreLog := [true], passLog := [[0], [1, 0]] }

/-- State after one more loop-body execution from `st2fin`: the remaining
unvisited child 2 was simulated from the cache and backpropagated. -/
def st3fin : RunState Bool Int :=
  { nodes := [{ state := none, parent := none, children := [1, 2],
                visits := 3, score := 10, uct := 0 },
              { state := some true, parent := some 0, children := [],
                visits := 1, score := 5, uct := 5 },
              { state := some true, parent := some 0, children := [],
                visits := 1, score := 5, uct := 5 }],
    cache := [("True", 5), ("None", 0)], rng := 2, iter := 3, genCalls := 2,
    scoreLog := [true], passLog := [[0], [1, 0], [2, 0]] }

/-- The two-iteration `cfgW` run state is reachable. -/
lemma reachW : Reach cfgW (initState cfgW [] 0) st2fin :=
  @Reach.step Bool Int Unit _ cfgW (initState cfgW [] 0) stA st2fin
    (@Reach.step Bool Int Unit _ cfgW (initState cfgW [] 0)
      (initState cfgW [] 0) stA Reach.refl (by decide) (by rfl))
    (by decide) (by rfl)

set_option maxHeartbeats 2000000 in
/-- The two-iteration `cfgW` run computes to `st2fin` (evaluated once and
shared by the concrete-input theorems below). -/
lemma runW : runLoop cfgW 6 (initState cfgW [] 0) = .ok (some st2fin) := by
  rfl

/-! ## C5: visit counts equal backpropagation passes -/

/-- C5: after every terminating run, each node's `visits` equals exactly
the number of logged simulate-plus-backpropagate passes whose walk
included that node; every pass walks from the simulated node through
every ancestor up to and including the root (index 0 is on every pass);
and the root's `visits` equals the number of passes, which is the number
of counted iterations (depth-guarded iterations logged no pass). -/
theorem c5_theorem {σ V E : Type} [LinearOrder V] (cfg : Cfg σ V E)
    (c0 : List (String × Int)) (g0 fuel : Nat) (st' : RunState σ V)
    (h : runLoop cfg fuel (initState cfg c0 g0) = .ok (some st')) :
    (∀ q, q < st'.nodes.length →
      visitsAt st'.nodes q = st'.passLog.countP (fun p => decide (q ∈ p))) ∧
    (∀ p ∈ st'.passLog, 0 ∈ p) ∧
    visitsAt st'.nodes 0 = st'.passLog.length ∧
    st'.passLog.length = st'.iter := by
  have hinv := reach_inv (initState_inv cfg c0 g0)
    (runLoop_reach cfg fuel _ st' h)
  refine ⟨hinv.passCount, hinv.passRoot, ?_, hinv.passLen⟩
  rw [hinv.passCount 0 hinv.tree.nonempty]
  exact List.countP_eq_length.mpr
    (fun p hp => by simpa using hinv.passRoot p hp)

/-- Witness for C5 at the concrete two-iteration run of `cfgW`. -/
theorem c5_witness :
    runLoop cfgW 6 (initState cfgW [] 0) = .ok (some st2fin) ∧
    visitsAt st2fin.nodes 1 =
      st2fin.passLog.countP (fun p => decide (1 ∈ p)) ∧
    visitsAt st2fin.nodes 0 = st2fin.passLog.length :=
  ⟨runW, (c5_theorem cfgW [] 0 6 st2fin runW).1 1 (by decide),
    (c5_theorem cfgW [] 0 6 st2fin runW).2.2.1⟩

/-! ## C6: the result cache -/

/-- C6: a simulation step with a cached canonical key returns the stored
score and does not consult the scoring oracle; on a miss with an absent
state, 0 is stored and used without the oracle; on a miss with a present
state, the oracle is consulted once, its score stored under the key and
used (the ghost log records the consultation); and over a whole run the
scoring oracle is consulted at most once per distinct canonical key (the
logged consultations have pairwise-distinct keys). -/
theorem c6_theorem {σ V E : Type} [LinearOrder V] (cfg : Cfg σ V E) :
    (∀ (cache : List (String × Int)) (stt : Option σ) (log : List σ)
        (v : Int), cacheGet cache (cfg.keyOf stt) = some v →
      simulatePhase cfg cache stt log = .ok (v, cache, log)) ∧
    (∀ (cache : List (String × Int)) (log : List σ),
      cacheGet cache (cfg.keyOf (none : Option σ)) = none →
      simulatePhase cfg cache none log =
        .ok (0, cachePut cache (cfg.keyOf (none : Option σ)) 0, log)) ∧
    (∀ (cache : List (String × Int)) (log : List σ) (x : σ) (v : Int),
      cacheGet cache (cfg.keyOf (some x)) = none →
      cfg.agent.evaluateScene x = .ok v →
      simulatePhase cfg cache (some x) log =
        .ok (v, cachePut cache (cfg.keyOf (some x)) v, log ++ [x])) ∧
    (∀ (c0 : List (String × Int)) (g0 fuel : Nat) (st' : RunState σ V),
      runLoop cfg fuel (initState cfg c0 g0) = .ok (some st') →
      st'.scoreLog.Pairwise
        (fun a b => cfg.keyOf (some a) ≠ cfg.keyOf (some b))) := by
  refine ⟨?_, ?_, ?_, ?_⟩
  · intro cache stt log v h
    simp [simulatePhase, h]
  · intro cache log h
    simp [simulatePhase, h, simulate]
  · intro cache log x v h hev
    simp [simulatePhase, h, simulate, hev]
  · intro c0 g0 fuel st' h
    exact (reach_inv (initState_inv cfg c0 g0)
      (runLoop_reach cfg fuel _ st' h)).logKeys

/-- Witness for C6: a concrete cache hit, and the pairwise-distinct
canonical keys of the oracle consultations of the two-iteration `cfgW`
run. -/
theorem c6_witness :
    cacheGet [("True", 5)] (cfgW.keyOf (some true)) = some 5 ∧
    simulatePhase cfgW [("True", 5)] (some true) [] =
      .ok (5, [("True", 5)], []) ∧
    runLoop cfgW 6 (initState cfgW [] 0) = .ok (some st2fin) ∧
    st2fin.scoreLog.Pairwise
      (fun a b => cfgW.keyOf (some a) ≠ cfgW.keyOf (some b)) :=
  ⟨rfl, (c6_theorem cfgW).1 [("True", 5)] (some true) [] 5 rfl, runW,
    (c6_theorem cfgW).2.2.2 [] 0 6 st2fin runW⟩

/-! ## C7: expansion -/

/-- C7: `expand(candidates)` creates exactly one child per candidate —
appended to the arena in input order with this node as parent and fresh
statistics — mutates nothing else; and over a run, a node's `children`
sequence is populated at most once: once nonempty, no later loop-body
execution changes it (only childless nodes are ever selected for
expansion, because expansion requires prior visits and unvisited nodes
are childless). -/
theorem c7_theorem {σ V E : Type} [LinearOrder V] (cfg : Cfg σ V E) :
    (∀ (u0 : V) (ns : List (Node σ V)) (i : Nat) (sts : List σ),
      i < ns.length →
      (expand u0 ns i sts).length = ns.length + sts.length ∧
      childrenAt (expand u0 ns i sts) i =
        childrenAt ns i ++ List.range' ns.length sts.length ∧
      (∀ (k : Nat) (s' : σ), sts[k]? = some s' →
        (expand u0 ns i sts)[ns.length + k]? = some (freshNode u0 i s')) ∧
      (∀ q, q ≠ i → q < ns.length → (expand u0 ns i sts)[q]? = ns[q]?)) ∧
    (∀ (c0 : List (String × Int)) (g0 : Nat) (st st' : RunState σ V),
      Reach cfg (initState cfg c0 g0) st → stepBody cfg st = .ok st' →
      ∀ i, childrenAt st.nodes i ≠ [] →
        childrenAt st'.nodes i = childrenAt st.nodes i) := by
  constructor
  · intro u0 ns i sts hi
    exact ⟨expand_length u0 i sts ns hi,
      childrenAt_expand_self u0 i sts ns hi,
      fun k s' hk => expand_get_new u0 i sts ns hi k s' hk,
      fun q hq hlt => expand_get_ne u0 i sts ns hi q hq hlt⟩
  · intro c0 g0 st st' hreach hstep i hne
    have hinv := reach_inv (initState_inv cfg c0 g0) hreach
    have hilt : i < st.nodes.length := lt_of_childrenAt_ne_nil hne
    rcases stepBody_ok_cases hstep with ⟨-, rfl⟩ |
      ⟨nodes1, j, g2, k2, score, cache2, log2, -, hex, -, rfl⟩
    · rfl
    · have hsel := select'_spec cfg hinv.tree st.rng
      have hii0 : i ≠ (select' cfg st.nodes st.rng).1 := by
        intro hcontra
        rw [hcontra] at hne
        exact hne hsel.2
      have hch1 : childrenAt nodes1 i = childrenAt st.nodes i :=
        (expandPhase_facts hinv.tree hsel.1 hex).2.2.2.2.2 i hii0 hilt
      calc childrenAt ((chainToRoot nodes1 j j).foldl
            (fun ns idx => update cfg.uctF ns idx score) nodes1) i
        = childrenAt nodes1 i := foldl_update_children cfg.uctF score _ nodes1 i
        _ = childrenAt st.nodes i := hch1

set_option maxHeartbeats 2000000 in
/-- Witness for C7: a concrete expansion of the visited root of `stA`,
and the preservation of the root's populated `children` across the third
loop-body execution of the `cfgW` run. -/
theorem c7_witness :
    (expand (0 : Int) stA.nodes 0 [true, false]).length = 1 + 2 ∧
    childrenAt (expand (0 : Int) stA.nodes 0 [true, false]) 0 =
      childrenAt stA.nodes 0 ++ List.range' 1 2 ∧
    stepBody cfgW st2fin = .ok st3fin ∧
    childrenAt st2fin.nodes 0 ≠ [] ∧
    childrenAt st3fin.nodes 0 = childrenAt st2fin.nodes 0 :=
  ⟨((c7_theorem cfgW).1 0 stA.nodes 0 [true, false] (by decide)).1,
   ((c7_theorem cfgW).1 0 stA.nodes 0 [true, false] (by decide)).2.1,
   rfl, by decide,
   (c7_theorem cfgW).2 [] 0 st2fin st3fin reachW rfl 0 (by decide)⟩

/-! ## C10: the UCT recomputation is well defined -/

/-- C10: in every reachable run state, a node that has a parent has a
parent with at least one visit (children only exist after their parent
was expanded, and only visited nodes are expanded), and `update` always
recomputes `uct` with the freshly incremented (hence positive) visit
count — so the division by `visitCount` and the logarithm of
`parent.visitCount` in the UCT expression are applied to positive
counts. -/
theorem c10_theorem {σ V E : Type} [LinearOrder V] (cfg : Cfg σ V E) :
    (∀ (c0 : List (String × Int)) (g0 : Nat) (st : RunState σ V),
      Reach cfg (initState cfg c0 g0) st →
      ∀ i p, parentAt st.nodes i = some p → 1 ≤ visitsAt st.nodes p) ∧
    (∀ (f : Int → Nat → Nat → V) (ns : List (Node σ V)) (i : Nat)
        (n : Node σ V) (p : Nat) (s : Int),
      ns[i]? = some n → n.parent = some p →
      (update f ns i s)[i]? = some
        { n with
          visits := n.visits + 1
          score := n.score + s
          uct := f (n.score + s) (n.visits + 1) (visitsAt ns p) } ∧
      1 ≤ n.visits + 1) := by
  constructor
  · intro c0 g0 st hreach i p hp
    have hinv := reach_inv (initState_inv cfg c0 g0) hreach
    have hmem := hinv.tree.parentMem i p hp
    exact hinv.tree.visPos p (fun hnil => by rw [hnil] at hmem; cases hmem)
  · intro f ns i n p s hn hp
    refine ⟨?_, by omega⟩
    rw [update_eq_of_parent f ns i n p s hn hp,
      get_set_self _ _ _ (index_lt_of_get hn)]

/-- Witness for C10: in the reachable state `st2fin`, node 1 has parent 0
with a positive visit count, and a concrete `update` stores the formula
value computed from the incremented count. -/
theorem c10_witness :
    parentAt st2fin.nodes 1 = some 0 ∧
    1 ≤ visitsAt st2fin.nodes 0 ∧
    (update (fun s _ _ => s) st2fin.nodes 1 (3 : Int))[1]? = some
      { state := some true, parent := some 0, children := [],
        visits := 2, score := 8, uct := (8 : Int) } :=
  ⟨rfl, (c10_theorem cfgW).1 [] 0 st2fin reachW 1 0 rfl,
   by
    have h := ((c10_theorem cfgW).2 (fun s _ _ => s) st2fin.nodes 1
      { state := some true, parent := some 0, children := [], visits := 1,
        score := 5, uct := 5 } 0 3 rfl rfl).1
    simpa using h⟩

/-! ## C9: determinism of the search -/

/-- A cache is sound for the scoring semantics when every stored entry is
the score `_simulate` would produce for any state rendering to that key.
The empty cache is sound, and so is every cache a run with this agent
leaves behind. -/
def Sound {σ V E : Type} (cfg : Cfg σ V E) (c : List (String × Int)) : Prop :=
  ∀ (s : Option σ) (v : Int), cacheGet c (cfg.keyOf s) = some v →
    simulate cfg.agent s = .ok v

/-- The canonical key determines the simulation score: states with equal
textual renderings receive equal scores (the adequacy assumption the
source's `str`-keyed cache relies on). -/
def KeyAdequate {σ V E : Type} (cfg : Cfg σ V E) : Prop :=
  ∀ s s' : Option σ, cfg.keyOf s = cfg.keyOf s' →
    simulate cfg.agent s = simulate cfg.agent s'

/-- On a sound cache, a simulation step returns exactly what `_simulate`
returns for the state (score or error), and leaves the cache sound. -/
lemma simulatePhase_sound {σ V E : Type} {cfg : Cfg σ V E}
    (hka : KeyAdequate cfg) {c : List (String × Int)} (hs : Sound cfg c)
    (stt : Option σ) (log : List σ) :
    (∃ v c' l', simulatePhase cfg c stt log = .ok (v, c', l') ∧
      simulate cfg.agent stt = .ok v ∧ Sound cfg c') ∨
    (∃ e, simulatePhase cfg c stt log = .error e ∧
      simulate cfg.agent stt = .error e) := by
  rcases hcg : cacheGet c (cfg.keyOf stt) with _ | v
  · rcases hsv : simulate cfg.agent stt with e | v
    · refine Or.inr ⟨e, ?_, rfl⟩
      simp [simulatePhase, hcg, hsv]
    · have hsound : Sound cfg (cachePut c (cfg.keyOf stt) v) := by
        intro s' v' h'
        rw [cacheGet_put] at h'
        split at h'
        · rename_i hkey
          cases h'
          rw [← hka stt s' hkey]
          exact hsv
        · exact hs s' v' h'
      rcases stt with _ | s
      · exact Or.inl ⟨v, cachePut c (cfg.keyOf none) v, log,
          by simp [simulatePhase, hcg, hsv], rfl, hsound⟩
      · exact Or.inl ⟨v, cachePut c (cfg.keyOf (some s)) v, log ++ [s],
          by simp [simulatePhase, hcg, hsv], rfl, hsound⟩
  · refine Or.inl ⟨v, c, log, ?_, hs stt v hcg, hs⟩
    simp [simulatePhase, hcg]

/-- Equality of two run states on everything the search logic reads
except the cache and the ghost logs. -/
def EquivUpToCache {σ V : Type} (st1 st2 : RunState σ V) : Prop :=
  st1.nodes = st2.nodes ∧ st1.rng = st2.rng ∧ st1.iter = st2.iter ∧
    st1.genCalls = st2.genCalls

/-- One loop-body execution from two cache-equivalent states with sound
caches: either both succeed, still cache-equivalent with sound caches, or
both fail with the same error. -/
lemma stepBody_rel {σ V E : Type} [LinearOrder V] {cfg : Cfg σ V E}
    (hka : KeyAdequate cfg) :
    ∀ (st1 st2 : RunState σ V), Sound cfg st1.cache → Sound cfg st2.cache →
      EquivUpToCache st1 st2 →
      (∃ st1' st2', stepBody cfg st1 = .ok st1' ∧ stepBody cfg st2 = .ok st2' ∧
        EquivUpToCache st1' st2' ∧ Sound cfg st1'.cache ∧
        Sound cfg st2'.cache) ∨
      (∃ e, stepBody cfg st1 = .error e ∧ stepBody cfg st2 = .error e) := by
  rintro ⟨n1, c1, r1, i1, k1, sl1, pl1⟩ ⟨n2, c2, r2, i2, k2, sl2, pl2⟩
    hs1 hs2 ⟨hn, hr, hi, hk⟩
  simp only at hn hr hi hk hs1 hs2
  subst hn; subst hr; subst hi; subst hk
  by_cases hd : cfg.maxDepth ≤ depthOf n1 (select' cfg n1 r1).1
  · left
    refine ⟨_, _, stepBody_guarded cfg _ hd, stepBody_guarded cfg _ hd,
      ⟨rfl, rfl, rfl, rfl⟩, hs1, hs2⟩
  · rcases hex : expandPhase cfg n1 (select' cfg n1 r1).1 (select' cfg n1 r1).2
        k1 with e | ⟨nodes1, j, g2, kk2⟩
    · right
      refine ⟨e, ?_, ?_⟩ <;> simp [stepBody, if_neg hd, hex]
    · rcases simulatePhase_sound hka hs1 (stateAt nodes1 j) sl1 with
        ⟨v, c1', l1', hp1, hsv1, hsnd1⟩ | ⟨e, hp1, hsv1⟩
      · rcases simulatePhase_sound hka hs2 (stateAt nodes1 j) sl2 with
          ⟨w, c2', l2', hp2, hsv2, hsnd2⟩ | ⟨e, hp2, hsv2⟩
        · have hvw : v = w := by
            rw [hsv1] at hsv2
            exact Except.ok.inj hsv2
          subst hvw
          left
          refine ⟨{ nodes := (chainToRoot nodes1 j j).foldl
                      (fun ns idx => update cfg.uctF ns idx v) nodes1,
                    cache := c1', rng := g2, iter := i1 + 1, genCalls := kk2,
                    scoreLog := l1',
                    passLog := pl1 ++ [chainToRoot nodes1 j j] },
                  { nodes := (chainToRoot nodes1 j j).foldl
                      (fun ns idx => update cfg.uctF ns idx v) nodes1,
                    cache := c2', rng := g2, iter := i1 + 1, genCalls := kk2,
                    scoreLog := l2',
                    passLog := pl2 ++ [chainToRoot nodes1 j j] },
            ?_, ?_, ⟨rfl, rfl, rfl, rfl⟩, hsnd1, hsnd2⟩ <;>
            simp [stepBody, if_neg hd, hex, hp1, hp2]
        · rw [hsv1] at hsv2
          cases hsv2
      · rcases simulatePhase_sound hka hs2 (stateAt nodes1 j) sl2 with
          ⟨w, c2', l2', hp2, hsv2, hsnd2⟩ | ⟨e', hp2, hsv2⟩
        · rw [hsv1] at hsv2
          cases hsv2
        · have hee : e = e' := by
            rw [hsv1] at hsv2
            exact Except.error.inj hsv2
          subst hee
          right
          refine ⟨e, ?_, ?_⟩ <;> simp [stepBody, if_neg hd, hex, hp1, hp2]

/-- The whole loop from two cache-equivalent sound states: both time out,
both fail with the same error, or both terminate in cache-equivalent
states. -/
lemma runLoop_rel {σ V E : Type} [LinearOrder V] {cfg : Cfg σ V E}
    (hka : KeyAdequate cfg) :
    ∀ (fuel : Nat) (st1 st2 : RunState σ V), Sound cfg st1.cache →
      Sound cfg st2.cache → EquivUpToCache st1 st2 →
      (runLoop cfg fuel st1 = .ok none ∧ runLoop cfg fuel st2 = .ok none) ∨
      (∃ st1' st2', runLoop cfg fuel st1 = .ok (some st1') ∧
        runLoop cfg fuel st2 = .ok (some st2') ∧
        EquivUpToCache st1' st2') ∨
      (∃ e, runLoop cfg fuel st1 = .error e ∧
        runLoop cfg fuel st2 = .error e) := by
  intro fuel
  induction fuel with
  | zero => intro st1 st2 _ _ _; exact Or.inl ⟨rfl, rfl⟩
  | succ fuel ih =>
    intro st1 st2 hs1 hs2 hR
    by_cases hlt : st1.iter < cfg.maxIterations
    · have hlt2 : st2.iter < cfg.maxIterations := by
        rw [← hR.2.2.1]; exact hlt
      rcases stepBody_rel hka st1 st2 hs1 hs2 hR with
        ⟨st1', st2', h1, h2, hR', hs1', hs2'⟩ | ⟨e, h1, h2⟩
      · have := ih st1' st2' hs1' hs2' hR'
        simpa [runLoop, if_pos hlt, if_pos hlt2, h1, h2] using this
      · refine Or.inr (Or.inr ⟨e, ?_, ?_⟩) <;>
          simp [runLoop, if_pos hlt, if_pos hlt2, h1, h2]
    · have hlt2 : ¬ st2.iter < cfg.maxIterations := by
        rw [← hR.2.2.1]; exact hlt
      refine Or.inr (Or.inl ⟨st1, st2, ?_, ?_, hR⟩) <;>
        simp [runLoop, if_neg hlt, if_neg hlt2]

/-- The observable selection result of a `generate_scene` outcome: `none`
for a run that had not finished, otherwise the propagated error or the
selected candidate (ghost state dropped). -/
def RunOutcome.sel {σ V E : Type} : RunOutcome σ V E → Option (Except E (Option σ))
  | .timeout => none
  | .failed e => some (.error e)
  | .done r _ => some (.ok r)

/-- C9: with a deterministic oracle whose scores factor through the
canonical key, two `generate_scene` runs with the same random seed and
the same inputs produce an identical selected result, for *any* two sound
starting caches — in particular for the empty cache of a fresh generator
and for the cache a previous identical run left on the same generator
instance.  The search logic introduces no nondeterminism beyond the
injected random source. -/
theorem c9_theorem {σ V E : Type} [LinearOrder V] (cfg : Cfg σ V E)
    (hka : KeyAdequate cfg) (c1 c2 : List (String × Int))
    (h1 : Sound cfg c1) (h2 : Sound cfg c2) (fuel g0 : Nat) :
    (generate_scene cfg fuel c1 g0).sel = (generate_scene cfg fuel c2 g0).sel := by
  have hR : EquivUpToCache (initState cfg c1 g0) (initState cfg c2 g0) :=
    ⟨rfl, rfl, rfl, rfl⟩
  rcases runLoop_rel hka fuel (initState cfg c1 g0) (initState cfg c2 g0)
      h1 h2 hR with
    ⟨ha, hb⟩ | ⟨st1', st2', ha, hb, hR'⟩ | ⟨e, ha, hb⟩
  · simp [generate_scene, ha, hb, RunOutcome.sel]
  · simp only [generate_scene, ha, hb, RunOutcome.sel, Option.some_inj]
    rw [hR'.1]
  · simp [generate_scene, ha, hb, RunOutcome.sel]

/-- A sound concrete nonempty cache for `cfgW` (the entry a previous run
would have stored for the state `true`). -/
def cacheC9 : List (String × Int) := [("True", 5)]

lemma keyAdequateW : KeyAdequate cfgW := by
  intro s s' h
  rcases s with _ | b
  · rcases s' with _ | b'
    · rfl
    · cases b' <;> exact absurd h (by decide)
  · rcases s' with _ | b'
    · cases b <;> exact absurd h (by decide)
    · cases b <;> cases b' <;> first | rfl | exact absurd h (by decide)

lemma soundW_nil : Sound cfgW [] := by
  intro s v h
  simp [cacheGet] at h

lemma soundW_C9 : Sound cfgW cacheC9 := by
  intro s v h
  rcases s with _ | b
  · have hnone : cacheGet cacheC9 (cfgW.keyOf none) = none := by decide
    rw [hnone] at h
    exact Option.noConfusion h
  · cases b
    · have hnone : cacheGet cacheC9 (cfgW.keyOf (some false)) = none := by
        decide
      rw [hnone] at h
      exact Option.noConfusion h
    · have hv : v = 5 := by
        have : cacheGet cacheC9 (cfgW.keyOf (some true)) = some 5 := by decide
        rw [this] at h
        exact (Option.some_inj.mp h).symm
      subst hv
      rfl

/-- Witness for C9: the empty starting cache of a fresh run and the
sound cache left for state `true` give the same selected result. -/
theorem c9_witness :
    KeyAdequate cfgW ∧ Sound cfgW [] ∧ Sound cfgW cacheC9 ∧
    (generate_scene cfgW 6 [] 0).sel = (generate_scene cfgW 6 cacheC9 0).sel :=
  ⟨keyAdequateW, soundW_nil, soundW_C9,
    c9_theorem cfgW keyAdequateW [] cacheC9 soundW_nil soundW_C9 6 0⟩

end Scriptwriter
